import Mathlib

/-!
# Minesweeper: board initialisation and tile reveal

A shallow embedding of `src/main.cpp` (the globals `grid`, `gameRunning`,
`gameWon`, the functions `InitGrid` and `RevealTile`, and the event dispatch of
`main`), followed by the properties proved about it.

Conventions of the embedding:
* `int` coordinates are `Int`; a coordinate pair is written `x y` (column, row)
  as in the source, and a cell of the grid is addressed as `grid[y][x]`, so a
  `Cell` is the pair `(y, x)`.
* `grid` is a vector of `GRID_HEIGHT` rows of `GRID_WIDTH` tiles each, so a
  board of another shape cannot be written.
* The globals `grid`, `gameRunning`, `gameWon` are the fields of `Game`, passed
  explicitly.
* `rand()` is an explicit list of draws, consumed left to right; a loop that
  asks for a draw when the list is used up gives `none`.
* The recursion of `RevealTile` is bounded by a depth budget, counted in nested
  calls that pass the guard; a call that returns at its guard uses none of it.
  The budget `GRID_WIDTH * GRID_HEIGHT` is shown never to be used up.

The definitions come first, then the lemmas, then the properties, each marked
with the number of the claim of the specification it settles.
-/

namespace Minesweeper

/-! ## Data model -/

/-- Source constant `TILE_SIZE`. -/
abbrev TILE_SIZE : Int := 32

/-- Source constant `GRID_WIDTH`. -/
abbrev GRID_WIDTH : Nat := 10

/-- Source constant `GRID_HEIGHT`. -/
abbrev GRID_HEIGHT : Nat := 10

/-- Source constant `MINES_COUNT`. -/
abbrev MINES_COUNT : Int := 10

/-- Source `enum TileState`. -/
inductive TileState where
  | HIDDEN
  | REVEALED
  | FLAGGED
deriving DecidableEq, Repr

/-- Source `struct Tile`. -/
structure Tile where
  hasMine : Bool
  adjacentMines : Int
  state : TileState
deriving DecidableEq, Repr

/-- A position of the grid: `(row, column)`, that is `(y, x)`. -/
abbrev Cell := Fin GRID_HEIGHT × Fin GRID_WIDTH

/-- The global `grid`, a `std::vector<std::vector<Tile>>` of `GRID_HEIGHT` rows
of `GRID_WIDTH` tiles. -/
abbrev Grid := Mathlib.Vector (Mathlib.Vector Tile GRID_WIDTH) GRID_HEIGHT

/-- The mutable globals of the program. -/
structure Game where
  grid : Grid
  gameRunning : Bool
  gameWon : Bool
deriving DecidableEq

/-- The tile `grid[y][x]` at cell `c = (y, x)`. -/
def tileAt (g : Grid) (c : Cell) : Tile := (g.get c.1).get c.2

/-- Assignment `grid[y][x] = t`. -/
def setTile (g : Grid) (c : Cell) (t : Tile) : Grid :=
  g.set c.1 ((g.get c.1).set c.2 t)

/-- The grid whose tile at row `r`, column `k` is `f r k`. -/
def mkGrid (f : Fin GRID_HEIGHT → Fin GRID_WIDTH → Tile) : Grid :=
  Mathlib.Vector.ofFn fun r => Mathlib.Vector.ofFn fun k => f r k

/-- The index `i` as a position below `n`, when `0 <= i < n`. -/
def index? (n : Nat) (i : Int) : Option (Fin n) :=
  if h : 0 ≤ i ∧ i < (n : Int) then some ⟨i.toNat, by omega⟩ else none

/-- The cell addressed by the coordinates `(x, y)`; `none` when
`x < 0 || x >= GRID_WIDTH || y < 0 || y >= GRID_HEIGHT`. -/
def cell? (x y : Int) : Option Cell :=
  match index? GRID_WIDTH x, index? GRID_HEIGHT y with
  | some k, some r => some (r, k)
  | _, _ => none

/-- The three outcomes the program distinguishes when it renders: the round is
running, or it has ended with `gameWon` set or cleared. -/
inductive Outcome where
  | Playing
  | Won
  | Lost
deriving DecidableEq, Repr

/-- The outcome as `RenderGrid` reads it from `gameRunning` and `gameWon`. -/
def Game.outcome (s : Game) : Outcome :=
  if s.gameRunning then Outcome.Playing
  else if s.gameWon then Outcome.Won else Outcome.Lost

/-! ## RevealTile -/

/-- The assignment `grid[y][x].state = REVEALED`. -/
def markRevealed (g : Grid) (c : Cell) : Grid :=
  setTile g c { tileAt g c with state := TileState.REVEALED }

/-- The scan at the end of `RevealTile`: `won` stays true when no cell has
`!hasMine && state != REVEALED`. -/
def checkWon (g : Grid) : Bool :=
  (List.finRange GRID_HEIGHT).all fun y =>
    (List.finRange GRID_WIDTH).all fun x =>
      !(!(tileAt g (y, x)).hasMine && decide ((tileAt g (y, x)).state ≠ TileState.REVEALED))

/-- The end of `RevealTile`: `if (won) { gameRunning = false; gameWon = true; }`. -/
def winCheck (s : Game) : Game :=
  if checkWon s.grid then { s with gameRunning := false, gameWon := true } else s

/-- The offsets `(i, j)` in the order the loops `for i in -1..1`, `for j in -1..1`
visit them. -/
def neighbourOffsets : List (Int × Int) :=
  [(-1, -1), (-1, 0), (-1, 1), (0, -1), (0, 0), (0, 1), (1, -1), (1, 0), (1, 1)]

/-- The loop body `RevealTile(x + j, y + i)` run for each offset in turn, the
state of one call handed to the next; `f` is the recursive call. -/
def revealEach (f : Game → Int → Int → Option Game) (x y : Int) :
    List (Int × Int) → Game → Option Game
  | [], s => some s
  | (i, j) :: rest, s =>
    match f s (x + j) (y + i) with
    | none => none
    | some s1 => revealEach f x y rest s1

/-- Source `RevealTile(x, y)` with a budget for the depth of the recursion:
`none` when a call that passes the guard finds the budget used up. -/
def RevealTileAux : Nat → Game → Int → Int → Option Game
  | fuel, s, x, y =>
    match cell? x y with
    | none => some s
    | some c =>
      if (tileAt s.grid c).state = TileState.REVEALED then some s
      else
        match fuel with
        | 0 => none
        | n + 1 =>
          let s1 : Game := { s with grid := markRevealed s.grid c }
          if (tileAt s1.grid c).hasMine then
            some { s1 with gameRunning := false, gameWon := false }
          else
            let spread :=
              if (tileAt s1.grid c).adjacentMines = 0 ∧ ¬ (tileAt s1.grid c).hasMine then
                revealEach (RevealTileAux n) x y neighbourOffsets s1
              else some s1
            match spread with
            | none => none
            | some s2 => some (winCheck s2)

/-- Source `RevealTile(x, y)`: the budget is the number of cells of the grid,
which `RevealTileAux` never exhausts. -/
def RevealTile (s : Game) (x y : Int) : Game :=
  match RevealTileAux (GRID_WIDTH * GRID_HEIGHT) s x y with
  | some s1 => s1
  | none => s

/-! ## InitGrid -/

/-- Nested loops `for (i = 0; i < GRID_HEIGHT; ++i) for (j = 0; j < GRID_WIDTH; ++j)`
running `body` on the grid at every cell, row by row. -/
def forEachCell (body : Grid → Cell → Grid) (g : Grid) : Grid :=
  (List.finRange GRID_HEIGHT).foldl
    (fun g1 y => (List.finRange GRID_WIDTH).foldl (fun g2 x => body g2 (y, x)) g1) g

/-- The first loops of `InitGrid`: `grid[i][j] = { false, 0, HIDDEN }` for every cell. -/
def resetGrid (g : Grid) : Grid :=
  forEachCell (fun g1 c => setTile g1 c ⟨false, 0, TileState.HIDDEN⟩) g

/-- The cell `grid[y][x]` for `x = rand() % GRID_WIDTH`, `y = rand() % GRID_HEIGHT`,
where `rx` and `ry` are the two values `rand()` returned. -/
def drawnCell (rx ry : Nat) : Cell :=
  (⟨ry % GRID_HEIGHT, Nat.mod_lt _ (by decide)⟩, ⟨rx % GRID_WIDTH, Nat.mod_lt _ (by decide)⟩)

/-- The loop `while (placedMines < MINES_COUNT)` of `InitGrid`, the bound given as
`minesCount`. Each turn takes two draws, `x` first; a draw that lands on a mine
changes nothing. `none` when the draws end before the loop does. -/
def placeMines (minesCount : Int) : List Nat → Grid → Int → Option Grid
  | rx :: ry :: rest, g, placedMines =>
    if placedMines < minesCount then
      if ¬ (tileAt g (drawnCell rx ry)).hasMine then
        placeMines minesCount rest
          (setTile g (drawnCell rx ry) { tileAt g (drawnCell rx ry) with hasMine := true })
          (placedMines + 1)
      else placeMines minesCount rest g placedMines
    else some g
  | _, g, placedMines => if placedMines < minesCount then none else some g

/-- The inner loops of the last part of `InitGrid`: the number of offsets `(i, j)`
with `(x + j, y + i)` in bounds and `grid[y + i][x + j].hasMine`. -/
def countAround (g : Grid) (x y : Int) : Int :=
  neighbourOffsets.foldl
    (fun count o =>
      match cell? (x + o.2) (y + o.1) with
      | some d => if (tileAt g d).hasMine then count + 1 else count
      | none => count)
    0

/-- The last loops of `InitGrid`: a cell with a mine is skipped (`continue`), any
other cell gets `adjacentMines = count`. -/
def computeAdjacency (g : Grid) : Grid :=
  forEachCell
    (fun g1 c =>
      if (tileAt g1 c).hasMine then g1
      else setTile g1 c { tileAt g1 c with adjacentMines := countAround g1 c.2 c.1 })
    g

/-- Source `InitGrid` with the constant `MINES_COUNT` replaced by the argument
`minesCount`: `prev` is the grid before the call, `draws` the values `rand()`
returns. -/
def InitGridWith (minesCount : Int) (prev : Grid) (draws : List Nat) : Option Grid :=
  match placeMines minesCount draws (resetGrid prev) 0 with
  | some g => some (computeAdjacency g)
  | none => none

/-- Source `InitGrid`. -/
def InitGrid (prev : Grid) (draws : List Nat) : Option Grid :=
  InitGridWith MINES_COUNT prev draws

/-! ## The event dispatch of `main` -/

/-- SDL constant `SDL_BUTTON_LEFT`. -/
abbrev SDL_BUTTON_LEFT : Nat := 1

/-- SDL constant `SDLK_RETURN`. -/
abbrev SDLK_RETURN : Int := 13

/-- SDL constant `SDLK_ESCAPE`. -/
abbrev SDLK_ESCAPE : Int := 27

/-- The events `main` tells apart, with the fields it reads. -/
inductive Event where
  | quit
  | mouseButtonDown (button : Nat) (px py : Int)
  | keyDown (sym : Int)
  | other
deriving DecidableEq, Repr

/-- The globals together with the local `running` of `main`. -/
structure App where
  game : Game
  running : Bool
deriving DecidableEq

/-- The body of `while (SDL_PollEvent(&event))` in `main`, for one event; `draws`
are the values `rand()` returns should the event restart the round. -/
def handleEvent (a : App) (e : Event) (draws : List Nat) : Option App :=
  let a1 : App := if e = Event.quit then { a with running := false } else a
  let a2 : App :=
    match e with
    | Event.mouseButtonDown button px py =>
      if a1.game.gameRunning then
        if button = SDL_BUTTON_LEFT then
          { a1 with game := RevealTile a1.game (Int.tdiv px TILE_SIZE) (Int.tdiv py TILE_SIZE) }
        else a1
      else a1
    | _ => a1
  match e with
  | Event.keyDown sym =>
    if !a2.game.gameRunning then
      if sym = SDLK_RETURN then
        match InitGrid a2.game.grid draws with
        | some g => some { a2 with game := ⟨g, true, false⟩ }
        | none => none
      else if sym = SDLK_ESCAPE then some { a2 with running := false }
      else some a2
    else some a2
  | _ => some a2

/-- The events of a run handled in turn, each with its own draws. -/
def handleEvents : App → List (Event × List Nat) → Option App
  | a, [] => some a
  | a, (e, draws) :: rest =>
    match handleEvent a e draws with
    | some a1 => handleEvents a1 rest
    | none => none

/-! ## RevealTile with a record of the cells it marks -/

/-- The loop of `revealEach`, each call also returning the cells it marked, in
the order they were marked. -/
def revealEachLog (f : Game → Int → Int → Option (Game × List Cell)) (x y : Int) :
    List (Int × Int) → Game → Option (Game × List Cell)
  | [], s => some (s, [])
  | (i, j) :: rest, s =>
    match f s (x + j) (y + i) with
    | none => none
    | some (s1, m1) =>
      match revealEachLog f x y rest s1 with
      | none => none
      | some (s2, m2) => some (s2, m1 ++ m2)

/-- The function `RevealTileAux` with every execution of the assignment
`grid[y][x].state = REVEALED` recorded: the second component lists the cells
assigned, in order. -/
def RevealTileLog : Nat → Game → Int → Int → Option (Game × List Cell)
  | fuel, s, x, y =>
    match cell? x y with
    | none => some (s, [])
    | some c =>
      if (tileAt s.grid c).state = TileState.REVEALED then some (s, [])
      else
        match fuel with
        | 0 => none
        | n + 1 =>
          let s1 : Game := { s with grid := markRevealed s.grid c }
          if (tileAt s1.grid c).hasMine then
            some ({ s1 with gameRunning := false, gameWon := false }, [c])
          else
            let spread :=
              if (tileAt s1.grid c).adjacentMines = 0 ∧ ¬ (tileAt s1.grid c).hasMine then
                revealEachLog (RevealTileLog n) x y neighbourOffsets s1
              else some (s1, [])
            match spread with
            | none => none
            | some (s2, m) => some (winCheck s2, c :: m)

/-! ## Notions the properties are stated with -/

/-- The cell `c` of `g` is in state `REVEALED`. -/
def Revealed (g : Grid) (c : Cell) : Prop := (tileAt g c).state = TileState.REVEALED

instance (g : Grid) (c : Cell) : Decidable (Revealed g c) := by
  unfold Revealed; infer_instance

/-- Two different cells whose rows and whose columns differ by at most one: `d`
is one of the up to eight neighbours of `c` on the grid. -/
def Adjacent (c d : Cell) : Prop :=
  c ≠ d ∧ c.1.val ≤ d.1.val + 1 ∧ d.1.val ≤ c.1.val + 1 ∧
    c.2.val ≤ d.2.val + 1 ∧ d.2.val ≤ c.2.val + 1

instance (c d : Cell) : Decidable (Adjacent c d) := by
  unfold Adjacent; infer_instance

/-- The number of cells with a mine among the neighbours of `c`. -/
def mineNeighbours (g : Grid) (c : Cell) : Nat :=
  (Finset.univ.filter fun d : Cell => Adjacent c d ∧ (tileAt g d).hasMine = true).card

/-- Every cell without a mine carries the number of mines around it. -/
def AdjCorrect (g : Grid) : Prop :=
  ∀ c : Cell, (tileAt g c).hasMine = false →
    (tileAt g c).adjacentMines = (mineNeighbours g c : Int)

/-- No cell without a mine and with `adjacentMines = 0` has a mine next to it. -/
def ZeroSafe (g : Grid) : Prop :=
  ∀ c d : Cell, (tileAt g c).hasMine = false → (tileAt g c).adjacentMines = 0 →
    Adjacent c d → (tileAt g d).hasMine = false

/-- The number of cells with a mine. -/
def mineCount (g : Grid) : Nat :=
  (Finset.univ.filter fun c : Cell => (tileAt g c).hasMine = true).card

/-- The number of cells not in state `REVEALED`. -/
def hiddenCount (g : Grid) : Nat :=
  (Finset.univ.filter fun c : Cell => ¬ Revealed g c).card

/-- Every cell without a mine is `REVEALED`. -/
def AllSafeRevealed (g : Grid) : Prop :=
  ∀ c : Cell, (tileAt g c).hasMine = false → Revealed g c

/-- The cell `d` is reached from `t` by a path of neighbouring cells in which
every cell before the last has no mine and `adjacentMines = 0`. -/
inductive CascadeReach (g : Grid) (t : Cell) : Cell → Prop where
  | start : CascadeReach g t t
  | step {c d : Cell} : CascadeReach g t c → (tileAt g c).hasMine = false →
      (tileAt g c).adjacentMines = 0 → Adjacent c d → CascadeReach g t d

/-- The states a round reaches from a board with every cell `HIDDEN` by calls of
`RevealTile` on cells without a mine. -/
inductive SafePlay : Game → Prop where
  | fresh (s : Game) : (∀ c : Cell, (tileAt s.grid c).state = TileState.HIDDEN) → SafePlay s
  | reveal {s : Game} (x y : Int) (c : Cell) : SafePlay s → cell? x y = some c →
      (tileAt s.grid c).hasMine = false → SafePlay (RevealTile s x y)

/-- A zero-count cell without a mine that is `REVEALED` and not in `A` has all
its neighbours `REVEALED`. -/
def ClosedExcept (A : Cell → Prop) (g : Grid) : Prop :=
  ∀ c d : Cell, ¬ A c → Revealed g c → (tileAt g c).hasMine = false →
    (tileAt g c).adjacentMines = 0 → Adjacent c d → Revealed g d

/-- Each tile of `g1` is the tile of `g` at the same cell, or that tile with its
state changed from another state to `REVEALED`. -/
def GridAdvance (g g1 : Grid) : Prop :=
  ∀ d : Cell, tileAt g1 d = tileAt g d ∨
    ((tileAt g d).state ≠ TileState.REVEALED ∧
      tileAt g1 d = { tileAt g d with state := TileState.REVEALED })

/-- The states of successive calls `RevealTile(x + j, y + i)` over a list of
offsets, each call returning with budget `n` and related to its result by `P`. -/
def CallChain (n : Nat) (P : Game → Int → Int → Game → Prop) (x y : Int) :
    List (Int × Int) → Game → Game → Prop
  | [], s, s2 => s2 = s
  | o :: rest, s, s2 =>
    ∃ s1, RevealTileAux n s (x + o.2) (y + o.1) = some s1 ∧
      P s (x + o.2) (y + o.1) s1 ∧ CallChain n P x y rest s1 s2

open TileState

/-! ## Relations between the states before and after a call -/

/-- Every cell a call newly reveals is reached from its target by a cascade path. -/
def RevealsWithin (s : Game) (x y : Int) (s1 : Game) : Prop :=
  ∀ d, Revealed s1.grid d → Revealed s.grid d ∨ ∃ c, cell? x y = some c ∧ CascadeReach s.grid c d

/-- A call keeps every exemption set: what was closed outside `A` stays so. -/
def KeepsClosed (s : Game) (_x _y : Int) (s1 : Game) : Prop :=
  ∀ A : Cell → Prop, ClosedExcept A s.grid → ClosedExcept A s1.grid

/-- From `s` to `s1` cells were only revealed, none of them a mine, and the two
flags are untouched unless every safe cell is REVEALED and the flags say won. -/
def SafeStep (s s1 : Game) : Prop :=
  GridAdvance s.grid s1.grid ∧
    (∀ d, (tileAt s.grid d).hasMine = true → Revealed s1.grid d → Revealed s.grid d) ∧
    ((s1.gameRunning = s.gameRunning ∧ s1.gameWon = s.gameWon) ∨
      (AllSafeRevealed s1.grid ∧ s1.gameRunning = false ∧ s1.gameWon = true))

/-- A call on a target without a mine, on a board whose zero-count cells are
safe, is a safe step. -/
def SafeCall (s : Game) (x y : Int) (s1 : Game) : Prop :=
  ZeroSafe s.grid → (∀ c, cell? x y = some c → (tileAt s.grid c).hasMine = false) →
    SafeStep s s1

/-- The list `m` holds, once each, the cells that are REVEALED in `g1` and were
not in `g`. -/
def LogOK (g g1 : Grid) (m : List Cell) : Prop :=
  m.Nodup ∧ ∀ d, d ∈ m ↔ ¬ Revealed g d ∧ Revealed g1 d

/-- The cells in the order the nested loops visit them. -/
def allCells : List Cell :=
  (List.finRange GRID_HEIGHT).flatMap fun y => (List.finRange GRID_WIDTH).map fun x => (y, x)

/-- The tile the last loops of `InitGrid` leave at `e`. -/
def withCount (g : Grid) (e : Cell) : Tile :=
  if (tileAt g e).hasMine then tileAt g e
  else { tileAt g e with
    adjacentMines := countAround g ((e.2 : Nat) : Int) ((e.1 : Nat) : Int) }

/-! ## The cells drawn -/

/-- The states `RevealTile` can be called in: the grid comes out of `InitGrid`, the
round starts with `gameRunning = true` and `gameWon = false`, and from then on
only `RevealTile` changes the three globals until the next `InitGrid`. -/
inductive Playable : Game → Prop where
  | start (prev : Grid) (draws : List Nat) (g : Grid) :
      InitGrid prev draws = some g → Playable ⟨g, true, false⟩
  | reveal {s : Game} (x y : Int) : Playable s → Playable (RevealTile s x y)

/-! ## Boards used as examples -/

/-- Mines along the top row, and the counts that go with them. -/
def topRowGrid : Grid :=
  mkGrid fun r k =>
    if r.val = 0 then ⟨true, 0, HIDDEN⟩
    else if r.val = 1 then ⟨false, if k.val = 0 ∨ k.val = 9 then 2 else 3, HIDDEN⟩
    else ⟨false, 0, HIDDEN⟩

/-- Draws that put a mine on each cell of the top row, one of them drawn twice. -/
def topRowDraws : List Nat :=
  [0, 0, 1, 0, 2, 0, 3, 0, 13, 20, 4, 0, 5, 0, 6, 0, 7, 0, 8, 0, 9, 0]

/-- A fresh round on `topRowGrid`. -/
def topRowGame : Game := ⟨topRowGrid, true, false⟩

/-- A value of `Game` that is no state of a round: no run of `InitGrid` gives this
board, whose corner cell `(0, 0)` carries the count 0 although the cell to its right
has a mine. -/
def mineByZeroGrid : Grid :=
  mkGrid fun r k =>
    if r.val = 0 ∧ k.val = 0 then ⟨false, 0, HIDDEN⟩
    else if r.val = 0 ∧ k.val = 1 then ⟨true, 0, HIDDEN⟩
    else ⟨false, 1, HIDDEN⟩

/-- The board `mineByZeroGrid` with the flags of a running round. -/
def mineByZeroGame : Game := ⟨mineByZeroGrid, true, false⟩

/-- A round on `topRowGrid` that has ended: the mine at `(0, 0)` is `REVEALED`. -/
def lostGame : Game := ⟨markRevealed topRowGrid (0, 0), false, false⟩

/-! ## Grid access -/

theorem tileAt_setTile (g : Grid) (c d : Cell) (t : Tile) :
    tileAt (setTile g c t) d = if d = c then t else tileAt g d := by
  unfold tileAt setTile
  by_cases h1 : c.1 = d.1
  · rw [← h1, Mathlib.Vector.get_set_same]
    by_cases h2 : c.2 = d.2
    · have : d = c := Prod.ext h1.symm h2.symm
      rw [← h2, Mathlib.Vector.get_set_same, if_pos this]
    · have : d ≠ c := fun h => h2 (by rw [h])
      rw [Mathlib.Vector.get_set_of_ne h2, if_neg this]
  · have : d ≠ c := fun h => h1 (by rw [h])
    rw [Mathlib.Vector.get_set_of_ne h1, if_neg this]

theorem tileAt_markRevealed (g : Grid) (c d : Cell) :
    tileAt (markRevealed g c) d =
      if d = c then { tileAt g c with state := REVEALED } else tileAt g d := by
  unfold markRevealed
  rw [tileAt_setTile]

theorem index?_eq_some {n : Nat} {i : Int} {k : Fin n} :
    index? n i = some k ↔ i = ((k : Nat) : Int) := by
  unfold index?
  constructor
  · intro h
    split at h
    · next hb =>
      have hk : (⟨i.toNat, by omega⟩ : Fin n) = k := Option.some.inj h
      have : i.toNat = (k : Nat) := congrArg Fin.val hk
      omega
    · cases h
  · intro h
    have hk := k.isLt
    have hb : 0 ≤ i ∧ i < (n : Int) := by omega
    rw [dif_pos hb]
    congr 1
    apply Fin.ext
    show i.toNat = (k : Nat)
    omega

theorem index?_eq_none {n : Nat} {i : Int} :
    index? n i = none ↔ i < 0 ∨ (n : Int) ≤ i := by
  unfold index?
  constructor
  · intro h
    split at h
    · cases h
    · omega
  · intro h
    have hb : ¬ (0 ≤ i ∧ i < (n : Int)) := by omega
    rw [dif_neg hb]

theorem cell?_eq_some {x y : Int} {c : Cell} :
    cell? x y = some c ↔ x = ((c.2 : Nat) : Int) ∧ y = ((c.1 : Nat) : Int) := by
  unfold cell?
  constructor
  · intro h
    split at h
    · next k r hk hr =>
      have hc : (r, k) = c := Option.some.inj h
      subst hc
      exact ⟨index?_eq_some.mp hk, index?_eq_some.mp hr⟩
    · cases h
  · rintro ⟨hx, hy⟩
    rw [index?_eq_some.mpr hx, index?_eq_some.mpr hy]

theorem cell?_eq_none {x y : Int} :
    cell? x y = none ↔ x < 0 ∨ (GRID_WIDTH : Int) ≤ x ∨ y < 0 ∨ (GRID_HEIGHT : Int) ≤ y := by
  unfold cell?
  constructor
  · intro h
    split at h
    · cases h
    · next hn =>
      cases hx : index? GRID_WIDTH x with
      | none => have := index?_eq_none.mp hx; omega
      | some k =>
        cases hy : index? GRID_HEIGHT y with
        | none => have := index?_eq_none.mp hy; omega
        | some r => exact absurd hy (hn k r hx)
  · intro h
    cases hx : index? GRID_WIDTH x with
    | none => rfl
    | some k =>
      cases hy : index? GRID_HEIGHT y with
      | none => rfl
      | some r =>
        have h1 := index?_eq_some.mp hx
        have h2 := index?_eq_some.mp hy
        have h3 := k.isLt
        have h4 := r.isLt
        omega

/-! ## The win scan -/

theorem checkWon_iff (g : Grid) : checkWon g = true ↔ AllSafeRevealed g := by
  unfold checkWon AllSafeRevealed Revealed
  simp only [List.all_eq_true, List.mem_finRange, true_implies]
  constructor
  · intro h c hc
    have := h c.1 c.2
    simp [hc] at this
    exact this
  · intro h y x
    have := h (y, x)
    cases hm : (tileAt g (y, x)).hasMine with
    | true => simp
    | false => simp [this hm]

theorem winCheck_grid (s : Game) : (winCheck s).grid = s.grid := by
  unfold winCheck
  split <;> rfl

/-! ## Unfolding one call -/

theorem RevealTileAux_oob (n : Nat) (s : Game) {x y : Int} (h : cell? x y = none) :
    RevealTileAux n s x y = some s := by
  unfold RevealTileAux
  simp [h]

theorem RevealTileAux_revealed (n : Nat) (s : Game) {x y : Int} {c : Cell}
    (h : cell? x y = some c) (hr : Revealed s.grid c) :
    RevealTileAux n s x y = some s := by
  unfold Revealed at hr
  unfold RevealTileAux
  simp [h, hr]

theorem RevealTileAux_zero (s : Game) {x y : Int} {c : Cell}
    (h : cell? x y = some c) (hr : ¬ Revealed s.grid c) :
    RevealTileAux 0 s x y = none := by
  unfold Revealed at hr
  unfold RevealTileAux
  simp [h, hr]

theorem RevealTileAux_mine (n : Nat) (s : Game) {x y : Int} {c : Cell}
    (h : cell? x y = some c) (hr : ¬ Revealed s.grid c)
    (hm : (tileAt s.grid c).hasMine = true) :
    RevealTileAux (n + 1) s x y = some ⟨markRevealed s.grid c, false, false⟩ := by
  unfold Revealed at hr
  rw [RevealTileAux]
  simp [h, hr, hm, tileAt_markRevealed]

theorem RevealTileAux_leaf (n : Nat) (s : Game) {x y : Int} {c : Cell}
    (h : cell? x y = some c) (hr : ¬ Revealed s.grid c)
    (hm : (tileAt s.grid c).hasMine = false) (ha : (tileAt s.grid c).adjacentMines ≠ 0) :
    RevealTileAux (n + 1) s x y =
      some (winCheck ⟨markRevealed s.grid c, s.gameRunning, s.gameWon⟩) := by
  unfold Revealed at hr
  rw [RevealTileAux]
  simp [h, hr, hm, ha, tileAt_markRevealed]

theorem RevealTileAux_spread (n : Nat) (s : Game) {x y : Int} {c : Cell}
    (h : cell? x y = some c) (hr : ¬ Revealed s.grid c)
    (hm : (tileAt s.grid c).hasMine = false) (ha : (tileAt s.grid c).adjacentMines = 0) :
    RevealTileAux (n + 1) s x y =
      match revealEach (RevealTileAux n) x y neighbourOffsets
          ⟨markRevealed s.grid c, s.gameRunning, s.gameWon⟩ with
      | none => none
      | some s2 => some (winCheck s2) := by
  unfold Revealed at hr
  rw [RevealTileAux]
  simp [h, hr, hm, ha, tileAt_markRevealed]

theorem revealEach_chain (n : Nat) (P : Game → Int → Int → Game → Prop) (x y : Int)
    (hP : ∀ s a b s1, RevealTileAux n s a b = some s1 → P s a b s1) :
    ∀ (l : List (Int × Int)) (s s2 : Game),
      revealEach (RevealTileAux n) x y l s = some s2 → CallChain n P x y l s s2 := by
  intro l
  induction l with
  | nil =>
    intro s s2 h
    simp only [revealEach, Option.some.injEq] at h
    exact h.symm
  | cons o rest ih =>
    intro s s2 h
    obtain ⟨i, j⟩ := o
    simp only [revealEach] at h
    cases h1 : RevealTileAux n s (x + j) (y + i) with
    | none => rw [h1] at h; cases h
    | some s1 =>
      rw [h1] at h
      exact ⟨s1, h1, hP _ _ _ _ h1, ih s1 s2 h⟩

/-- Induction over the calls of `RevealTile`: a relation between the state
before a call, its arguments and the state after holds for every call that
returns, once it holds for the four ways a call can run. -/
theorem reveal_induction (P : Game → Int → Int → Game → Prop)
    (hskip : ∀ s x y, (cell? x y = none ∨ ∃ c, cell? x y = some c ∧ Revealed s.grid c) →
      P s x y s)
    (hmine : ∀ s x y c, cell? x y = some c → ¬ Revealed s.grid c →
      (tileAt s.grid c).hasMine = true → P s x y ⟨markRevealed s.grid c, false, false⟩)
    (hleaf : ∀ s x y c, cell? x y = some c → ¬ Revealed s.grid c →
      (tileAt s.grid c).hasMine = false → (tileAt s.grid c).adjacentMines ≠ 0 →
      P s x y (winCheck ⟨markRevealed s.grid c, s.gameRunning, s.gameWon⟩))
    (hspread : ∀ n s x y c s2, cell? x y = some c → ¬ Revealed s.grid c →
      (tileAt s.grid c).hasMine = false → (tileAt s.grid c).adjacentMines = 0 →
      CallChain n P x y neighbourOffsets ⟨markRevealed s.grid c, s.gameRunning, s.gameWon⟩ s2 →
      P s x y (winCheck s2)) :
    ∀ (n : Nat) (s : Game) (x y : Int) (s1 : Game),
      RevealTileAux n s x y = some s1 → P s x y s1 := by
  intro n
  induction n with
  | zero =>
    intro s x y s1 h
    cases hc : cell? x y with
    | none =>
      rw [RevealTileAux_oob 0 s hc] at h
      cases h
      exact hskip s x y (Or.inl hc)
    | some c =>
      by_cases hr : Revealed s.grid c
      · rw [RevealTileAux_revealed 0 s hc hr] at h
        cases h
        exact hskip s x y (Or.inr ⟨c, hc, hr⟩)
      · rw [RevealTileAux_zero s hc hr] at h
        cases h
  | succ n ih =>
    intro s x y s1 h
    cases hc : cell? x y with
    | none =>
      rw [RevealTileAux_oob _ s hc] at h
      cases h
      exact hskip s x y (Or.inl hc)
    | some c =>
      by_cases hr : Revealed s.grid c
      · rw [RevealTileAux_revealed _ s hc hr] at h
        cases h
        exact hskip s x y (Or.inr ⟨c, hc, hr⟩)
      · cases hm : (tileAt s.grid c).hasMine with
        | true =>
          rw [RevealTileAux_mine n s hc hr hm] at h
          cases h
          exact hmine s x y c hc hr hm
        | false =>
          by_cases ha : (tileAt s.grid c).adjacentMines = 0
          · rw [RevealTileAux_spread n s hc hr hm ha] at h
            cases he : revealEach (RevealTileAux n) x y neighbourOffsets
                ⟨markRevealed s.grid c, s.gameRunning, s.gameWon⟩ with
            | none => rw [he] at h; cases h
            | some s2 =>
              rw [he] at h
              cases h
              exact hspread n s x y c s2 hc hr hm ha
                (revealEach_chain n P x y ih _ _ _ he)
          · rw [RevealTileAux_leaf n s hc hr hm ha] at h
            cases h
            exact hleaf s x y c hc hr hm ha

/-! ## A call only turns cells to REVEALED -/

theorem gridAdvance_refl (g : Grid) : GridAdvance g g := fun _ => Or.inl rfl

theorem gridAdvance_trans {g g1 g2 : Grid} (h1 : GridAdvance g g1) (h2 : GridAdvance g1 g2) :
    GridAdvance g g2 := by
  intro d
  rcases h2 d with e2 | ⟨n2, e2⟩
  · rw [e2]; exact h1 d
  · rcases h1 d with e1 | ⟨n1, e1⟩
    · rw [e1] at n2 e2
      exact Or.inr ⟨n2, e2⟩
    · rw [e1] at n2
      exact absurd rfl n2

theorem GridAdvance.markRevealed (g : Grid) {c : Cell} (hr : ¬ Revealed g c) :
    GridAdvance g (markRevealed g c) := by
  intro d
  rw [tileAt_markRevealed]
  by_cases h : d = c
  · subst h
    rw [if_pos rfl]
    exact Or.inr ⟨hr, rfl⟩
  · rw [if_neg h]
    exact Or.inl rfl

theorem GridAdvance.hasMine {g g1 : Grid} (h : GridAdvance g g1) (d : Cell) :
    (tileAt g1 d).hasMine = (tileAt g d).hasMine := by
  rcases h d with e | ⟨_, e⟩ <;> rw [e]

theorem GridAdvance.adjacentMines {g g1 : Grid} (h : GridAdvance g g1) (d : Cell) :
    (tileAt g1 d).adjacentMines = (tileAt g d).adjacentMines := by
  rcases h d with e | ⟨_, e⟩ <;> rw [e]

theorem GridAdvance.revealed {g g1 : Grid} (h : GridAdvance g g1) {d : Cell}
    (hr : Revealed g d) : Revealed g1 d := by
  unfold Revealed at *
  rcases h d with e | ⟨_, e⟩ <;> rw [e]
  exact hr

theorem callChain_advance {n : Nat} {P : Game → Int → Int → Game → Prop} {x y : Int}
    (hP : ∀ s a b s1, RevealTileAux n s a b = some s1 → P s a b s1 →
      GridAdvance s.grid s1.grid) :
    ∀ (l : List (Int × Int)) (s s2 : Game), CallChain n P x y l s s2 →
      GridAdvance s.grid s2.grid := by
  intro l
  induction l with
  | nil =>
    intro s s2 h
    simp only [CallChain] at h
    rw [h]
    exact gridAdvance_refl _
  | cons o rest ih =>
    intro s s2 h
    obtain ⟨s1, he, h1, h2⟩ := h
    exact gridAdvance_trans (hP _ _ _ _ he h1) (ih s1 s2 h2)

theorem RevealTileAux_advance (n : Nat) (s : Game) (x y : Int) (s1 : Game)
    (h : RevealTileAux n s x y = some s1) : GridAdvance s.grid s1.grid := by
  refine reveal_induction (fun s _ _ s1 => GridAdvance s.grid s1.grid) ?_ ?_ ?_ ?_ n s x y s1 h
  · intro s x y _
    exact gridAdvance_refl _
  · intro s x y c _ hr _
    exact GridAdvance.markRevealed _ hr
  · intro s x y c _ hr _ _
    rw [winCheck_grid]
    exact GridAdvance.markRevealed _ hr
  · intro n s x y c s2 _ hr _ _ hch
    rw [winCheck_grid]
    exact gridAdvance_trans (GridAdvance.markRevealed _ hr)
      (callChain_advance (fun _ _ _ _ _ h => h) _ _ _ hch)

theorem CallChain.advance {n : Nat} {P : Game → Int → Int → Game → Prop} {x y : Int}
    {l : List (Int × Int)} {s s2 : Game} (h : CallChain n P x y l s s2) :
    GridAdvance s.grid s2.grid :=
  callChain_advance (fun s a b s1 he _ => RevealTileAux_advance n s a b s1 he) l s s2 h

/-! ## The target of a call is REVEALED afterwards -/

theorem revealed_markRevealed (g : Grid) (c : Cell) : Revealed (markRevealed g c) c := by
  unfold Revealed
  rw [tileAt_markRevealed, if_pos rfl]

theorem RevealTileAux_target (n : Nat) (s : Game) (x y : Int) (s1 : Game)
    (h : RevealTileAux n s x y = some s1) {c : Cell} (hc : cell? x y = some c) :
    Revealed s1.grid c := by
  have key := reveal_induction (fun s x y s1 => ∀ c, cell? x y = some c → Revealed s1.grid c)
    ?_ ?_ ?_ ?_ n s x y s1 h
  · exact key c hc
  · intro s x y hs c hc
    rcases hs with hn | ⟨d, hd, hr⟩
    · rw [hn] at hc; cases hc
    · rw [hd] at hc; cases hc; exact hr
  · intro s x y c hc _ _ d hd
    rw [hc] at hd; cases hd
    exact revealed_markRevealed _ _
  · intro s x y c hc _ _ _ d hd
    rw [hc] at hd; cases hd
    rw [winCheck_grid]
    exact revealed_markRevealed _ _
  · intro n s x y c s2 hc _ _ _ hch d hd
    rw [hc] at hd; cases hd
    rw [winCheck_grid]
    exact GridAdvance.revealed (CallChain.advance hch) (revealed_markRevealed _ _)

/-- After the loop over all nine offsets every neighbour of the centre is REVEALED. -/
theorem callChain_neighbours {n : Nat} {P : Game → Int → Int → Game → Prop} {x y : Int} :
    ∀ (l : List (Int × Int)) (s s2 : Game), CallChain n P x y l s s2 →
      ∀ o ∈ l, ∀ d, cell? (x + o.2) (y + o.1) = some d → Revealed s2.grid d := by
  intro l
  induction l with
  | nil => intro s s2 _ o ho; cases ho
  | cons o1 rest ih =>
    intro s s2 h o ho d hd
    obtain ⟨s1, he, _, h2⟩ := h
    rcases List.mem_cons.mp ho with rfl | hmem
    · exact GridAdvance.revealed (CallChain.advance h2) (RevealTileAux_target n s _ _ s1 he hd)
    · exact ih s1 s2 h2 o hmem d hd

theorem offset_of_adjacent {c d : Cell} (h : Adjacent c d) :
    ∃ o ∈ neighbourOffsets,
      cell? (((c.2 : Nat) : Int) + o.2) (((c.1 : Nat) : Int) + o.1) = some d := by
  obtain ⟨_, h1, h2, h3, h4⟩ := h
  refine ⟨(((d.1 : Nat) : Int) - ((c.1 : Nat) : Int), ((d.2 : Nat) : Int) - ((c.2 : Nat) : Int)),
    ?_, ?_⟩
  · have hi : ((d.1 : Nat) : Int) - ((c.1 : Nat) : Int) = -1 ∨
        ((d.1 : Nat) : Int) - ((c.1 : Nat) : Int) = 0 ∨
        ((d.1 : Nat) : Int) - ((c.1 : Nat) : Int) = 1 := by omega
    have hj : ((d.2 : Nat) : Int) - ((c.2 : Nat) : Int) = -1 ∨
        ((d.2 : Nat) : Int) - ((c.2 : Nat) : Int) = 0 ∨
        ((d.2 : Nat) : Int) - ((c.2 : Nat) : Int) = 1 := by omega
    rcases hi with hi | hi | hi <;> rcases hj with hj | hj | hj <;> rw [hi, hj] <;>
      simp [neighbourOffsets]
  · rw [cell?_eq_some]
    constructor <;> simp

theorem adjacent_of_offset {c d : Cell} {o : Int × Int} (ho : o ∈ neighbourOffsets)
    (h : cell? (((c.2 : Nat) : Int) + o.2) (((c.1 : Nat) : Int) + o.1) = some d) :
    d = c ∨ Adjacent c d := by
  rw [cell?_eq_some] at h
  obtain ⟨hx, hy⟩ := h
  by_cases hdc : d = c
  · exact Or.inl hdc
  · right
    refine ⟨fun e => hdc e.symm, ?_⟩
    simp only [neighbourOffsets, List.mem_cons, List.mem_singleton, List.not_mem_nil,
      or_false] at ho
    rcases ho with rfl | rfl | rfl | rfl | rfl | rfl | rfl | rfl | rfl <;>
      simp only at hx hy <;> omega

/-! ## The budget is never used up -/

theorem hiddenCount_le_cells (g : Grid) : hiddenCount g ≤ GRID_WIDTH * GRID_HEIGHT := by
  unfold hiddenCount
  refine le_trans (Finset.card_filter_le _ _) ?_
  simp [Finset.card_univ, Fintype.card_prod, Fintype.card_fin]

theorem hiddenCount_advance {g g1 : Grid} (h : GridAdvance g g1) :
    hiddenCount g1 ≤ hiddenCount g := by
  unfold hiddenCount
  apply Finset.card_le_card
  intro d hd
  simp only [Finset.mem_filter, Finset.mem_univ, true_and] at hd ⊢
  exact fun hr => hd (GridAdvance.revealed h hr)

theorem hiddenCount_markRevealed (g : Grid) {c : Cell} (hr : ¬ Revealed g c) :
    hiddenCount (markRevealed g c) < hiddenCount g := by
  unfold hiddenCount
  apply Finset.card_lt_card
  rw [Finset.ssubset_iff_of_subset]
  · refine ⟨c, ?_, ?_⟩
    · simp only [Finset.mem_filter, Finset.mem_univ, true_and]
      exact hr
    · simp only [Finset.mem_filter, Finset.mem_univ, true_and, not_not]
      exact revealed_markRevealed g c
  · intro d hd
    simp only [Finset.mem_filter, Finset.mem_univ, true_and] at hd ⊢
    exact fun h => hd (GridAdvance.revealed (GridAdvance.markRevealed g hr) h)

theorem revealEach_total (n : Nat) (x y : Int)
    (hf : ∀ s a b, hiddenCount s.grid ≤ n → ∃ s1, RevealTileAux n s a b = some s1) :
    ∀ (l : List (Int × Int)) (s : Game), hiddenCount s.grid ≤ n →
      ∃ s2, revealEach (RevealTileAux n) x y l s = some s2 := by
  intro l
  induction l with
  | nil => intro s _; exact ⟨s, rfl⟩
  | cons o rest ih =>
    intro s hs
    obtain ⟨i, j⟩ := o
    obtain ⟨s1, h1⟩ := hf s (x + j) (y + i) hs
    have hle : hiddenCount s1.grid ≤ n :=
      le_trans (hiddenCount_advance (RevealTileAux_advance n s _ _ s1 h1)) hs
    obtain ⟨s2, h2⟩ := ih s1 hle
    refine ⟨s2, ?_⟩
    simp only [revealEach, h1]
    exact h2

theorem RevealTileAux_total :
    ∀ (n : Nat) (s : Game) (x y : Int), hiddenCount s.grid ≤ n →
      ∃ s1, RevealTileAux n s x y = some s1 := by
  intro n
  induction n with
  | zero =>
    intro s x y hs
    cases hc : cell? x y with
    | none => exact ⟨s, RevealTileAux_oob 0 s hc⟩
    | some c =>
      by_cases hr : Revealed s.grid c
      · exact ⟨s, RevealTileAux_revealed 0 s hc hr⟩
      · exfalso
        have h0 : hiddenCount s.grid = 0 := Nat.le_zero.mp hs
        unfold hiddenCount at h0
        rw [Finset.card_eq_zero] at h0
        have hmem : c ∈ Finset.univ.filter fun d : Cell => ¬ Revealed s.grid d := by
          simp only [Finset.mem_filter, Finset.mem_univ, true_and]
          exact hr
        rw [h0] at hmem
        exact absurd hmem (Finset.not_mem_empty c)
  | succ n ih =>
    intro s x y hs
    cases hc : cell? x y with
    | none => exact ⟨s, RevealTileAux_oob _ s hc⟩
    | some c =>
      by_cases hr : Revealed s.grid c
      · exact ⟨s, RevealTileAux_revealed _ s hc hr⟩
      · cases hm : (tileAt s.grid c).hasMine with
        | true => exact ⟨_, RevealTileAux_mine n s hc hr hm⟩
        | false =>
          by_cases ha : (tileAt s.grid c).adjacentMines = 0
          · have hlt := hiddenCount_markRevealed s.grid hr
            have hle : hiddenCount (markRevealed s.grid c) ≤ n := by omega
            obtain ⟨s2, h2⟩ := revealEach_total n x y ih neighbourOffsets
              ⟨markRevealed s.grid c, s.gameRunning, s.gameWon⟩ hle
            refine ⟨winCheck s2, ?_⟩
            rw [RevealTileAux_spread n s hc hr hm ha, h2]
          · exact ⟨_, RevealTileAux_leaf n s hc hr hm ha⟩

theorem revealEach_mono {f f1 : Game → Int → Int → Option Game} (x y : Int)
    (hf : ∀ s a b s1, f s a b = some s1 → f1 s a b = some s1) :
    ∀ (l : List (Int × Int)) (s s2 : Game),
      revealEach f x y l s = some s2 → revealEach f1 x y l s = some s2 := by
  intro l
  induction l with
  | nil => intro s s2 h; exact h
  | cons o rest ih =>
    intro s s2 h
    obtain ⟨i, j⟩ := o
    simp only [revealEach] at h ⊢
    cases h1 : f s (x + j) (y + i) with
    | none => rw [h1] at h; cases h
    | some s1 =>
      rw [h1] at h
      rw [hf _ _ _ _ h1]
      exact ih s1 s2 h

theorem RevealTileAux_mono_succ :
    ∀ (n : Nat) (s : Game) (x y : Int) (s1 : Game),
      RevealTileAux n s x y = some s1 → RevealTileAux (n + 1) s x y = some s1 := by
  intro n
  induction n with
  | zero =>
    intro s x y s1 h
    cases hc : cell? x y with
    | none =>
      rw [RevealTileAux_oob 0 s hc] at h
      rw [RevealTileAux_oob _ s hc]; exact h
    | some c =>
      by_cases hr : Revealed s.grid c
      · rw [RevealTileAux_revealed 0 s hc hr] at h
        rw [RevealTileAux_revealed _ s hc hr]; exact h
      · rw [RevealTileAux_zero s hc hr] at h
        cases h
  | succ n ih =>
    intro s x y s1 h
    cases hc : cell? x y with
    | none =>
      rw [RevealTileAux_oob _ s hc] at h
      rw [RevealTileAux_oob _ s hc]; exact h
    | some c =>
      by_cases hr : Revealed s.grid c
      · rw [RevealTileAux_revealed _ s hc hr] at h
        rw [RevealTileAux_revealed _ s hc hr]; exact h
      · cases hm : (tileAt s.grid c).hasMine with
        | true =>
          rw [RevealTileAux_mine n s hc hr hm] at h
          rw [RevealTileAux_mine _ s hc hr hm]; exact h
        | false =>
          by_cases ha : (tileAt s.grid c).adjacentMines = 0
          · rw [RevealTileAux_spread n s hc hr hm ha] at h
            rw [RevealTileAux_spread _ s hc hr hm ha]
            cases he : revealEach (RevealTileAux n) x y neighbourOffsets
                ⟨markRevealed s.grid c, s.gameRunning, s.gameWon⟩ with
            | none => rw [he] at h; cases h
            | some s2 =>
              rw [he] at h
              rw [revealEach_mono x y ih _ _ _ he]
              exact h
          · rw [RevealTileAux_leaf n s hc hr hm ha] at h
            rw [RevealTileAux_leaf _ s hc hr hm ha]; exact h

theorem RevealTileAux_mono_add (n k : Nat) (s : Game) (x y : Int) (s1 : Game)
    (h : RevealTileAux n s x y = some s1) : RevealTileAux (n + k) s x y = some s1 := by
  induction k with
  | zero => exact h
  | succ k ih => exact RevealTileAux_mono_succ _ _ _ _ _ ih

/-- The call `RevealTile` returns the state `RevealTileAux` computes. -/
theorem RevealTileAux_eq_RevealTile (s : Game) (x y : Int) :
    RevealTileAux (GRID_WIDTH * GRID_HEIGHT) s x y = some (RevealTile s x y) := by
  obtain ⟨s1, h1⟩ := RevealTileAux_total (GRID_WIDTH * GRID_HEIGHT) s x y
    (hiddenCount_le_cells s.grid)
  unfold RevealTile
  rw [h1]

/-! ## Relations that compose along a chain of calls -/

theorem CallChain.fold {n : Nat} {P : Game → Int → Int → Game → Prop} {x y : Int}
    (R : Game → Game → Prop) (hrefl : ∀ s, R s s)
    (htrans : ∀ s s1 s2, R s s1 → R s1 s2 → R s s2) :
    ∀ (l : List (Int × Int)) (s s2 : Game),
      (∀ s a b s1, RevealTileAux n s a b = some s1 → P s a b s1 → R s s1) →
      CallChain n P x y l s s2 → R s s2 := by
  intro l
  induction l with
  | nil =>
    intro s s2 _ h
    simp only [CallChain] at h
    rw [h]
    exact hrefl s
  | cons o rest ih =>
    intro s s2 hP h
    obtain ⟨s1, he, h1, h2⟩ := h
    exact htrans _ _ _ (hP _ _ _ _ he h1) (ih s1 s2 hP h2)

/-! ## What a cascade can reach -/

theorem CascadeReach.of_advance {g g1 : Grid} (h : GridAdvance g g1) {t d : Cell}
    (hr : CascadeReach g1 t d) : CascadeReach g t d := by
  induction hr with
  | start => exact CascadeReach.start
  | step _ hm ha hadj ih =>
    rw [GridAdvance.hasMine h] at hm
    rw [GridAdvance.adjacentMines h] at ha
    exact CascadeReach.step ih hm ha hadj

theorem CascadeReach.head {g : Grid} {t c d : Cell} (hm : (tileAt g t).hasMine = false)
    (ha : (tileAt g t).adjacentMines = 0) (hadj : Adjacent t c) (hr : CascadeReach g c d) :
    CascadeReach g t d := by
  induction hr with
  | start => exact CascadeReach.step CascadeReach.start hm ha hadj
  | step _ hm1 ha1 hadj1 ih => exact CascadeReach.step ih hm1 ha1 hadj1

theorem callChain_within {n : Nat} {x y : Int} (g0 : Grid) :
    ∀ (l : List (Int × Int)) (s s2 : Game), GridAdvance g0 s.grid →
      CallChain n RevealsWithin x y l s s2 →
      ∀ d, Revealed s2.grid d → Revealed s.grid d ∨
        ∃ o ∈ l, ∃ e, cell? (x + o.2) (y + o.1) = some e ∧ CascadeReach g0 e d := by
  intro l
  induction l with
  | nil =>
    intro s s2 _ h d hd
    simp only [CallChain] at h
    rw [h] at hd
    exact Or.inl hd
  | cons o rest ih =>
    intro s s2 hadv h d hd
    obtain ⟨s1, he, h1, h2⟩ := h
    have hadv1 : GridAdvance g0 s1.grid :=
      gridAdvance_trans hadv (RevealTileAux_advance n s _ _ s1 he)
    rcases ih s1 s2 hadv1 h2 d hd with hr | ⟨o2, ho2, e, hce, hreach⟩
    · rcases h1 d hr with hr0 | ⟨c, hc, hreach⟩
      · exact Or.inl hr0
      · exact Or.inr ⟨o, List.mem_cons_self _ _, c, hc, CascadeReach.of_advance hadv hreach⟩
    · exact Or.inr ⟨o2, List.mem_cons_of_mem _ ho2, e, hce, hreach⟩

theorem revealed_markRevealed_iff (g : Grid) (c d : Cell) :
    Revealed (markRevealed g c) d ↔ d = c ∨ Revealed g d := by
  unfold Revealed
  rw [tileAt_markRevealed]
  by_cases h : d = c
  · simp [h]
  · simp [h]

theorem RevealTileAux_within (n : Nat) (s : Game) (x y : Int) (s1 : Game)
    (h : RevealTileAux n s x y = some s1) : RevealsWithin s x y s1 := by
  refine reveal_induction RevealsWithin ?_ ?_ ?_ ?_ n s x y s1 h
  · intro s x y _ d hd
    exact Or.inl hd
  · intro s x y c hc _ _ d hd
    rcases (revealed_markRevealed_iff _ _ _).mp hd with rfl | hr
    · exact Or.inr ⟨d, hc, CascadeReach.start⟩
    · exact Or.inl hr
  · intro s x y c hc _ _ _ d hd
    rw [winCheck_grid] at hd
    rcases (revealed_markRevealed_iff _ _ _).mp hd with rfl | hr
    · exact Or.inr ⟨d, hc, CascadeReach.start⟩
    · exact Or.inl hr
  · intro n s x y c s2 hc hr hm ha hch d hd
    rw [winCheck_grid] at hd
    obtain ⟨hx, hy⟩ := cell?_eq_some.mp hc
    rcases callChain_within s.grid neighbourOffsets _ s2
        (GridAdvance.markRevealed s.grid hr) hch d hd with h1 | ⟨o, ho, e, hce, hreach⟩
    · rcases (revealed_markRevealed_iff _ _ _).mp h1 with rfl | hr1
      · exact Or.inr ⟨d, hc, CascadeReach.start⟩
      · exact Or.inl hr1
    · right
      refine ⟨c, hc, ?_⟩
      rw [hx, hy] at hce
      rcases adjacent_of_offset ho hce with rfl | hadj
      · exact hreach
      · exact CascadeReach.head hm ha hadj hreach

/-! ## Revealed zero-count cells have revealed neighbours -/

theorem closedExcept_mark {A : Cell → Prop} {g : Grid} {c : Cell} (h : ClosedExcept A g)
    (hr : ¬ Revealed g c) : ClosedExcept (fun e => A e ∨ e = c) (markRevealed g c) := by
  intro e d hA hre hm ha hadj
  have hadv := GridAdvance.markRevealed g hr
  have hne : e ≠ c := fun h1 => hA (Or.inr h1)
  have hre0 : Revealed g e := by
    rcases (revealed_markRevealed_iff _ _ _).mp hre with h1 | h1
    · exact absurd h1 hne
    · exact h1
  rw [GridAdvance.hasMine hadv] at hm
  rw [GridAdvance.adjacentMines hadv] at ha
  exact GridAdvance.revealed hadv (h e d (fun h1 => hA (Or.inl h1)) hre0 hm ha hadj)

theorem closedExcept_drop {A : Cell → Prop} {g : Grid} {c : Cell}
    (h : ClosedExcept (fun e => A e ∨ e = c) g)
    (hc : (tileAt g c).hasMine = false → (tileAt g c).adjacentMines = 0 →
      ∀ d, Adjacent c d → Revealed g d) : ClosedExcept A g := by
  intro e d hA hre hm ha hadj
  by_cases hec : e = c
  · subst hec
    exact hc hm ha d hadj
  · exact h e d (fun h1 => h1.elim hA hec) hre hm ha hadj

theorem RevealTileAux_closed (n : Nat) (s : Game) (x y : Int) (s1 : Game)
    (h : RevealTileAux n s x y = some s1) : KeepsClosed s x y s1 := by
  refine reveal_induction KeepsClosed ?_ ?_ ?_ ?_ n s x y s1 h
  · intro s x y _ A hA
    exact hA
  · intro s x y c _ hr hm A hA
    refine closedExcept_drop (closedExcept_mark hA hr) ?_
    intro hm1
    rw [GridAdvance.hasMine (GridAdvance.markRevealed s.grid hr), hm] at hm1
    cases hm1
  · intro s x y c _ hr _ ha A hA
    rw [winCheck_grid]
    refine closedExcept_drop (closedExcept_mark hA hr) ?_
    intro _ ha1
    rw [GridAdvance.adjacentMines (GridAdvance.markRevealed s.grid hr)] at ha1
    exact absurd ha1 ha
  · intro n s x y c s2 hc hr _ _ hch A hA
    rw [winCheck_grid]
    obtain ⟨hx, hy⟩ := cell?_eq_some.mp hc
    have h2 : ClosedExcept (fun e => A e ∨ e = c) s2.grid :=
      CallChain.fold
        (fun s s1 => ∀ A : Cell → Prop, ClosedExcept A s.grid → ClosedExcept A s1.grid)
        (fun _ _ h => h) (fun _ _ _ h1 h2 A hA => h2 A (h1 A hA)) _ _ _
        (fun _ _ _ _ _ hP => hP) hch _ (closedExcept_mark hA hr)
    refine closedExcept_drop h2 ?_
    intro _ _ d hadj
    obtain ⟨o, ho, hco⟩ := offset_of_adjacent hadj
    rw [← hx, ← hy] at hco
    exact callChain_neighbours _ _ _ hch o ho d hco

/-! ## Cascades on boards whose zero-count cells are safe -/

theorem allSafeRevealed_advance {g g1 : Grid} (h : GridAdvance g g1)
    (ha : AllSafeRevealed g) : AllSafeRevealed g1 := by
  intro c hc
  rw [GridAdvance.hasMine h] at hc
  exact GridAdvance.revealed h (ha c hc)

theorem zeroSafe_advance {g g1 : Grid} (h : GridAdvance g g1) (hz : ZeroSafe g) :
    ZeroSafe g1 := by
  intro c d hm ha hadj
  rw [GridAdvance.hasMine h] at hm ⊢
  rw [GridAdvance.adjacentMines h] at ha
  exact hz c d hm ha hadj

theorem safeStep_refl (s : Game) : SafeStep s s :=
  ⟨gridAdvance_refl _, fun _ _ h => h, Or.inl ⟨rfl, rfl⟩⟩

theorem safeStep_trans {s s1 s2 : Game} (h1 : SafeStep s s1) (h2 : SafeStep s1 s2) :
    SafeStep s s2 := by
  obtain ⟨a1, m1, f1⟩ := h1
  obtain ⟨a2, m2, f2⟩ := h2
  refine ⟨gridAdvance_trans a1 a2, ?_, ?_⟩
  · intro d hd hr
    refine m1 d hd (m2 d ?_ hr)
    rw [GridAdvance.hasMine a1]
    exact hd
  · rcases f2 with ⟨e1, e2⟩ | hw
    · rcases f1 with ⟨e3, e4⟩ | ⟨hall, e3, e4⟩
      · exact Or.inl ⟨e1.trans e3, e2.trans e4⟩
      · exact Or.inr ⟨allSafeRevealed_advance a2 hall, e1.trans e3, e2.trans e4⟩
    · exact Or.inr hw

theorem safeStep_mark (s : Game) {c : Cell} (hr : ¬ Revealed s.grid c)
    (hm : (tileAt s.grid c).hasMine = false) :
    SafeStep s ⟨markRevealed s.grid c, s.gameRunning, s.gameWon⟩ := by
  refine ⟨GridAdvance.markRevealed _ hr, ?_, Or.inl ⟨rfl, rfl⟩⟩
  intro d hd hrd
  rcases (revealed_markRevealed_iff _ _ _).mp hrd with rfl | h1
  · rw [hm] at hd; cases hd
  · exact h1

theorem SafeStep.winCheck (s : Game) : SafeStep s (winCheck s) := by
  unfold Minesweeper.winCheck
  by_cases h : checkWon s.grid = true
  · rw [if_pos h]
    exact ⟨gridAdvance_refl _, fun _ _ h1 => h1, Or.inr ⟨(checkWon_iff _).mp h, rfl, rfl⟩⟩
  · rw [if_neg h]
    exact safeStep_refl s

theorem callChain_safe {n : Nat} {x y : Int} (g0 : Grid) (hz : ZeroSafe g0) :
    ∀ (l : List (Int × Int)) (s s2 : Game), GridAdvance g0 s.grid →
      (∀ o ∈ l, ∀ e, cell? (x + o.2) (y + o.1) = some e → (tileAt g0 e).hasMine = false) →
      CallChain n SafeCall x y l s s2 → SafeStep s s2 := by
  intro l
  induction l with
  | nil =>
    intro s s2 _ _ h
    simp only [CallChain] at h
    rw [h]
    exact safeStep_refl s
  | cons o rest ih =>
    intro s s2 hadv hsafe h
    obtain ⟨s1, he, h1, h2⟩ := h
    have hs1 : SafeStep s s1 := by
      apply h1 (zeroSafe_advance hadv hz)
      intro e hce
      rw [GridAdvance.hasMine hadv]
      exact hsafe o (List.mem_cons_self _ _) e hce
    have hadv1 : GridAdvance g0 s1.grid := gridAdvance_trans hadv hs1.1
    exact safeStep_trans hs1
      (ih s1 s2 hadv1 (fun o2 ho2 => hsafe o2 (List.mem_cons_of_mem _ ho2)) h2)

theorem RevealTileAux_safe (n : Nat) (s : Game) (x y : Int) (s1 : Game)
    (h : RevealTileAux n s x y = some s1) : SafeCall s x y s1 := by
  refine reveal_induction SafeCall ?_ ?_ ?_ ?_ n s x y s1 h
  · intro s x y _ _ _
    exact safeStep_refl s
  · intro s x y c hc _ hm _ hsafe
    rw [hsafe c hc] at hm
    cases hm
  · intro s x y c _ hr hm _ _ _
    exact safeStep_trans (safeStep_mark s hr hm) (SafeStep.winCheck _)
  · intro n s x y c s2 hc hr hm ha hch hz _
    obtain ⟨hx, hy⟩ := cell?_eq_some.mp hc
    have hchain : SafeStep ⟨markRevealed s.grid c, s.gameRunning, s.gameWon⟩ s2 := by
      refine callChain_safe s.grid hz neighbourOffsets _ s2
        (GridAdvance.markRevealed s.grid hr) ?_ hch
      intro o ho e hce
      rw [hx, hy] at hce
      rcases adjacent_of_offset ho hce with rfl | hadj
      · exact hm
      · exact hz c e hm ha hadj
    exact safeStep_trans (safeStep_trans (safeStep_mark s hr hm) hchain) (SafeStep.winCheck _)

theorem zeroSafe_of_adjCorrect {g : Grid} (h : AdjCorrect g) : ZeroSafe g := by
  intro c d hm ha hadj
  have h0 := h c hm
  rw [ha] at h0
  have hcard : mineNeighbours g c = 0 := by omega
  unfold mineNeighbours at hcard
  rw [Finset.card_eq_zero] at hcard
  cases hd : (tileAt g d).hasMine with
  | false => rfl
  | true =>
    have hmem : d ∈ Finset.univ.filter fun d : Cell => Adjacent c d ∧ (tileAt g d).hasMine = true := by
      simp only [Finset.mem_filter, Finset.mem_univ, true_and]
      exact ⟨hadj, hd⟩
    rw [hcard] at hmem
    exact absurd hmem (Finset.not_mem_empty d)

theorem adjCorrect_advance {g g1 : Grid} (h : GridAdvance g g1) (ha : AdjCorrect g) :
    AdjCorrect g1 := by
  intro c hc
  rw [GridAdvance.hasMine h] at hc
  rw [GridAdvance.adjacentMines h, ha c hc]
  unfold mineNeighbours
  congr 2
  ext d
  simp only [Finset.mem_filter, Finset.mem_univ, true_and]
  rw [GridAdvance.hasMine h]

/-! ## Facts about one call of RevealTile -/

theorem RevealTile_skip (s : Game) {x y : Int}
    (h : cell? x y = none ∨ ∃ c, cell? x y = some c ∧ Revealed s.grid c) :
    RevealTile s x y = s := by
  have h1 := RevealTileAux_eq_RevealTile s x y
  rcases h with hn | ⟨c, hc, hr⟩
  · rw [RevealTileAux_oob _ s hn] at h1
    exact (Option.some.inj h1).symm
  · rw [RevealTileAux_revealed _ s hc hr] at h1
    exact (Option.some.inj h1).symm

theorem RevealTile_mine (s : Game) {x y : Int} {c : Cell} (hc : cell? x y = some c)
    (hr : ¬ Revealed s.grid c) (hm : (tileAt s.grid c).hasMine = true) :
    RevealTile s x y = ⟨markRevealed s.grid c, false, false⟩ := by
  have h1 := RevealTileAux_eq_RevealTile s x y
  have h2 := RevealTileAux_mine (GRID_WIDTH * GRID_HEIGHT - 1) s hc hr hm
  have h3 : GRID_WIDTH * GRID_HEIGHT - 1 + 1 = GRID_WIDTH * GRID_HEIGHT := by decide
  rw [h3, h1] at h2
  exact Option.some.inj h2

theorem RevealTile_advance (s : Game) (x y : Int) :
    GridAdvance s.grid (RevealTile s x y).grid :=
  RevealTileAux_advance _ s x y _ (RevealTileAux_eq_RevealTile s x y)

theorem RevealTile_target (s : Game) {x y : Int} {c : Cell} (hc : cell? x y = some c) :
    Revealed (RevealTile s x y).grid c :=
  RevealTileAux_target _ s x y _ (RevealTileAux_eq_RevealTile s x y) hc

theorem RevealTile_closed (s : Game) (x y : Int) (h : ClosedExcept (fun _ => False) s.grid) :
    ClosedExcept (fun _ => False) (RevealTile s x y).grid :=
  RevealTileAux_closed _ s x y _ (RevealTileAux_eq_RevealTile s x y) _ h

theorem safePlay_closed {s : Game} (h : SafePlay s) : ClosedExcept (fun _ => False) s.grid := by
  induction h with
  | fresh s hs =>
    intro c d _ hr
    unfold Revealed at hr
    rw [hs c] at hr
    cases hr
  | reveal x y c _ _ _ ih => exact RevealTile_closed _ x y ih

theorem cascadeReach_revealed {g : Grid} (h : ClosedExcept (fun _ => False) g) {t d : Cell}
    (ht : Revealed g t) (hr : CascadeReach g t d) : Revealed g d := by
  induction hr with
  | start => exact ht
  | step _ hm ha hadj ih => exact h _ _ (fun hf => hf) ih hm ha hadj

/-- The cells REVEALED after a call on a closed board: those before, and those a
cascade path reaches from the target. -/
theorem RevealTile_revealed_iff (s : Game) {x y : Int} {c : Cell} (hc : cell? x y = some c)
    (hcl : ClosedExcept (fun _ => False) s.grid) (d : Cell) :
    Revealed (RevealTile s x y).grid d ↔ Revealed s.grid d ∨ CascadeReach s.grid c d := by
  constructor
  · intro hd
    rcases RevealTileAux_within _ s x y _ (RevealTileAux_eq_RevealTile s x y) d hd with
      h1 | ⟨e, he, hreach⟩
    · exact Or.inl h1
    · rw [hc] at he
      cases he
      exact Or.inr hreach
  · rintro (h1 | h1)
    · exact GridAdvance.revealed (RevealTile_advance s x y) h1
    · have hcl1 := RevealTile_closed s x y hcl
      have hreach : CascadeReach (RevealTile s x y).grid c d := by
        clear hcl1
        induction h1 with
        | start => exact CascadeReach.start
        | step _ hm ha hadj ih =>
          refine CascadeReach.step ih ?_ ?_ hadj
          · rw [GridAdvance.hasMine (RevealTile_advance s x y)]; exact hm
          · rw [GridAdvance.adjacentMines (RevealTile_advance s x y)]; exact ha
      exact cascadeReach_revealed hcl1 (RevealTile_target s hc) hreach

theorem cascadeReach_of_nonzero {g : Grid} {t d : Cell}
    (h : (tileAt g t).hasMine = true ∨ (tileAt g t).adjacentMines ≠ 0)
    (hr : CascadeReach g t d) : d = t := by
  induction hr with
  | start => rfl
  | step _ hm ha _ ih =>
    subst ih
    rcases h with h | h
    · rw [hm] at h; cases h
    · exact absurd ha h

theorem RevealTile_safe (s : Game) {x y : Int} (hz : ZeroSafe s.grid)
    (hsafe : ∀ c, cell? x y = some c → (tileAt s.grid c).hasMine = false) :
    SafeStep s (RevealTile s x y) :=
  RevealTileAux_safe _ s x y _ (RevealTileAux_eq_RevealTile s x y) hz hsafe

/-! ## The record of marked cells -/

theorem LogOK.nil (g : Grid) : LogOK g g [] :=
  ⟨List.nodup_nil, fun d => ⟨fun h => absurd h (List.not_mem_nil d), fun h => absurd h.2 h.1⟩⟩

theorem logOK_mark (g : Grid) {c : Cell} (hr : ¬ Revealed g c) :
    LogOK g (markRevealed g c) [c] := by
  refine ⟨List.nodup_singleton c, fun d => ?_⟩
  rw [List.mem_singleton, revealed_markRevealed_iff]
  constructor
  · rintro rfl
    exact ⟨hr, Or.inl rfl⟩
  · rintro ⟨h1, h2 | h2⟩
    · exact h2
    · exact absurd h2 h1

theorem LogOK.append {g g1 g2 : Grid} {m1 m2 : List Cell} (a1 : GridAdvance g g1)
    (a2 : GridAdvance g1 g2) (h1 : LogOK g g1 m1) (h2 : LogOK g1 g2 m2) :
    LogOK g g2 (m1 ++ m2) := by
  refine ⟨?_, fun d => ?_⟩
  · rw [List.nodup_append]
    refine ⟨h1.1, h2.1, ?_⟩
    intro d hd1 hd2
    exact ((h2.2 d).mp hd2).1 ((h1.2 d).mp hd1).2
  · rw [List.mem_append, h1.2, h2.2]
    constructor
    · rintro (⟨h, k⟩ | ⟨h, k⟩)
      · exact ⟨h, GridAdvance.revealed a2 k⟩
      · exact ⟨fun hr => h (GridAdvance.revealed a1 hr), k⟩
    · rintro ⟨h, k⟩
      by_cases hr : Revealed g1 d
      · exact Or.inl ⟨h, hr⟩
      · exact Or.inr ⟨hr, k⟩

theorem revealEachLog_fst {fL : Game → Int → Int → Option (Game × List Cell)}
    {f : Game → Int → Int → Option Game} (x y : Int)
    (hf : ∀ s a b, (fL s a b).map Prod.fst = f s a b) :
    ∀ (l : List (Int × Int)) (s : Game),
      (revealEachLog fL x y l s).map Prod.fst = revealEach f x y l s := by
  intro l
  induction l with
  | nil => intro s; rfl
  | cons o rest ih =>
    intro s
    obtain ⟨i, j⟩ := o
    simp only [revealEachLog, revealEach]
    rw [← hf s (x + j) (y + i)]
    cases h1 : fL s (x + j) (y + i) with
    | none => rfl
    | some p =>
      obtain ⟨s1, m1⟩ := p
      simp only [Option.map_some']
      rw [← ih s1]
      cases h2 : revealEachLog fL x y rest s1 with
      | none => rfl
      | some q => rfl

theorem RevealTileLog_oob (n : Nat) (s : Game) {x y : Int} (h : cell? x y = none) :
    RevealTileLog n s x y = some (s, []) := by
  unfold RevealTileLog
  simp [h]

theorem RevealTileLog_revealed (n : Nat) (s : Game) {x y : Int} {c : Cell}
    (h : cell? x y = some c) (hr : Revealed s.grid c) :
    RevealTileLog n s x y = some (s, []) := by
  unfold Revealed at hr
  unfold RevealTileLog
  simp [h, hr]

theorem RevealTileLog_zero (s : Game) {x y : Int} {c : Cell}
    (h : cell? x y = some c) (hr : ¬ Revealed s.grid c) :
    RevealTileLog 0 s x y = none := by
  unfold Revealed at hr
  unfold RevealTileLog
  simp [h, hr]

theorem RevealTileLog_mine (n : Nat) (s : Game) {x y : Int} {c : Cell}
    (h : cell? x y = some c) (hr : ¬ Revealed s.grid c)
    (hm : (tileAt s.grid c).hasMine = true) :
    RevealTileLog (n + 1) s x y = some (⟨markRevealed s.grid c, false, false⟩, [c]) := by
  unfold Revealed at hr
  rw [RevealTileLog]
  simp [h, hr, hm, tileAt_markRevealed]

theorem RevealTileLog_leaf (n : Nat) (s : Game) {x y : Int} {c : Cell}
    (h : cell? x y = some c) (hr : ¬ Revealed s.grid c)
    (hm : (tileAt s.grid c).hasMine = false) (ha : (tileAt s.grid c).adjacentMines ≠ 0) :
    RevealTileLog (n + 1) s x y =
      some (winCheck ⟨markRevealed s.grid c, s.gameRunning, s.gameWon⟩, [c]) := by
  unfold Revealed at hr
  rw [RevealTileLog]
  simp [h, hr, hm, ha, tileAt_markRevealed]

theorem RevealTileLog_spread (n : Nat) (s : Game) {x y : Int} {c : Cell}
    (h : cell? x y = some c) (hr : ¬ Revealed s.grid c)
    (hm : (tileAt s.grid c).hasMine = false) (ha : (tileAt s.grid c).adjacentMines = 0) :
    RevealTileLog (n + 1) s x y =
      match revealEachLog (RevealTileLog n) x y neighbourOffsets
          ⟨markRevealed s.grid c, s.gameRunning, s.gameWon⟩ with
      | none => none
      | some (s2, m) => some (winCheck s2, c :: m) := by
  unfold Revealed at hr
  rw [RevealTileLog]
  simp [h, hr, hm, ha, tileAt_markRevealed]

/-- Dropping the record from `RevealTileLog` gives `RevealTileAux`. -/
theorem RevealTileLog_fst :
    ∀ (n : Nat) (s : Game) (x y : Int),
      (RevealTileLog n s x y).map Prod.fst = RevealTileAux n s x y := by
  intro n
  induction n with
  | zero =>
    intro s x y
    cases hc : cell? x y with
    | none => rw [RevealTileLog_oob 0 s hc, RevealTileAux_oob 0 s hc]; rfl
    | some c =>
      by_cases hr : Revealed s.grid c
      · rw [RevealTileLog_revealed 0 s hc hr, RevealTileAux_revealed 0 s hc hr]; rfl
      · rw [RevealTileLog_zero s hc hr, RevealTileAux_zero s hc hr]; rfl
  | succ n ih =>
    intro s x y
    cases hc : cell? x y with
    | none => rw [RevealTileLog_oob _ s hc, RevealTileAux_oob _ s hc]; rfl
    | some c =>
      by_cases hr : Revealed s.grid c
      · rw [RevealTileLog_revealed _ s hc hr, RevealTileAux_revealed _ s hc hr]; rfl
      · cases hm : (tileAt s.grid c).hasMine with
        | true => rw [RevealTileLog_mine n s hc hr hm, RevealTileAux_mine n s hc hr hm]; rfl
        | false =>
          by_cases ha : (tileAt s.grid c).adjacentMines = 0
          · rw [RevealTileLog_spread n s hc hr hm ha, RevealTileAux_spread n s hc hr hm ha,
              ← revealEachLog_fst x y ih]
            cases revealEachLog (RevealTileLog n) x y neighbourOffsets
                ⟨markRevealed s.grid c, s.gameRunning, s.gameWon⟩ with
            | none => rfl
            | some q => rfl
          · rw [RevealTileLog_leaf n s hc hr hm ha, RevealTileAux_leaf n s hc hr hm ha]; rfl

theorem RevealTileLog_some {n : Nat} {s : Game} {x y : Int} {s1 : Game} {m : List Cell}
    (h : RevealTileLog n s x y = some (s1, m)) : RevealTileAux n s x y = some s1 := by
  rw [← RevealTileLog_fst, h]
  rfl

theorem revealEachLog_ok (n : Nat) (x y : Int)
    (hf : ∀ s a b s1 m, RevealTileLog n s a b = some (s1, m) → LogOK s.grid s1.grid m) :
    ∀ (l : List (Int × Int)) (s s2 : Game) (m : List Cell),
      revealEachLog (RevealTileLog n) x y l s = some (s2, m) →
        GridAdvance s.grid s2.grid ∧ LogOK s.grid s2.grid m := by
  intro l
  induction l with
  | nil =>
    intro s s2 m h
    simp only [revealEachLog, Option.some.injEq, Prod.mk.injEq] at h
    obtain ⟨rfl, rfl⟩ := h
    exact ⟨gridAdvance_refl _, LogOK.nil _⟩
  | cons o rest ih =>
    intro s s2 m h
    obtain ⟨i, j⟩ := o
    simp only [revealEachLog] at h
    cases h1 : RevealTileLog n s (x + j) (y + i) with
    | none => rw [h1] at h; cases h
    | some p =>
      obtain ⟨s1, m1⟩ := p
      rw [h1] at h
      simp only at h
      cases h2 : revealEachLog (RevealTileLog n) x y rest s1 with
      | none => rw [h2] at h; cases h
      | some q =>
        obtain ⟨s3, m2⟩ := q
        rw [h2] at h
        simp only [Option.some.injEq, Prod.mk.injEq] at h
        obtain ⟨rfl, rfl⟩ := h
        have a1 := RevealTileAux_advance n s _ _ s1 (RevealTileLog_some h1)
        obtain ⟨a2, k2⟩ := ih s1 s3 m2 h2
        exact ⟨gridAdvance_trans a1 a2, LogOK.append a1 a2 (hf _ _ _ _ _ h1) k2⟩

theorem RevealTileLog_ok :
    ∀ (n : Nat) (s : Game) (x y : Int) (s1 : Game) (m : List Cell),
      RevealTileLog n s x y = some (s1, m) → LogOK s.grid s1.grid m := by
  intro n
  induction n with
  | zero =>
    intro s x y s1 m h
    cases hc : cell? x y with
    | none =>
      rw [RevealTileLog_oob 0 s hc] at h
      simp only [Option.some.injEq, Prod.mk.injEq] at h
      obtain ⟨rfl, rfl⟩ := h
      exact LogOK.nil _
    | some c =>
      by_cases hr : Revealed s.grid c
      · rw [RevealTileLog_revealed 0 s hc hr] at h
        simp only [Option.some.injEq, Prod.mk.injEq] at h
        obtain ⟨rfl, rfl⟩ := h
        exact LogOK.nil _
      · rw [RevealTileLog_zero s hc hr] at h
        cases h
  | succ n ih =>
    intro s x y s1 m h
    cases hc : cell? x y with
    | none =>
      rw [RevealTileLog_oob _ s hc] at h
      simp only [Option.some.injEq, Prod.mk.injEq] at h
      obtain ⟨rfl, rfl⟩ := h
      exact LogOK.nil _
    | some c =>
      by_cases hr : Revealed s.grid c
      · rw [RevealTileLog_revealed _ s hc hr] at h
        simp only [Option.some.injEq, Prod.mk.injEq] at h
        obtain ⟨rfl, rfl⟩ := h
        exact LogOK.nil _
      · cases hm : (tileAt s.grid c).hasMine with
        | true =>
          rw [RevealTileLog_mine n s hc hr hm] at h
          simp only [Option.some.injEq, Prod.mk.injEq] at h
          obtain ⟨rfl, rfl⟩ := h
          exact logOK_mark _ hr
        | false =>
          by_cases ha : (tileAt s.grid c).adjacentMines = 0
          · rw [RevealTileLog_spread n s hc hr hm ha] at h
            cases he : revealEachLog (RevealTileLog n) x y neighbourOffsets
                ⟨markRevealed s.grid c, s.gameRunning, s.gameWon⟩ with
            | none => rw [he] at h; cases h
            | some q =>
              obtain ⟨s2, m2⟩ := q
              rw [he] at h
              simp only [Option.some.injEq, Prod.mk.injEq] at h
              obtain ⟨rfl, rfl⟩ := h
              obtain ⟨a2, k2⟩ := revealEachLog_ok n x y ih _ _ _ _ he
              rw [winCheck_grid]
              show LogOK s.grid s2.grid ([c] ++ m2)
              exact LogOK.append (GridAdvance.markRevealed _ hr) a2 (logOK_mark _ hr) k2
          · rw [RevealTileLog_leaf n s hc hr hm ha] at h
            simp only [Option.some.injEq, Prod.mk.injEq] at h
            obtain ⟨rfl, rfl⟩ := h
            rw [winCheck_grid]
            exact logOK_mark _ hr

theorem LogOK.length_le {g g1 : Grid} {m : List Cell} (h : LogOK g g1 m) :
    m.length ≤ hiddenCount g := by
  rw [← List.toFinset_card_of_nodup h.1]
  unfold hiddenCount
  apply Finset.card_le_card
  intro d hd
  simp only [Finset.mem_filter, Finset.mem_univ, true_and]
  exact ((h.2 d).mp (List.mem_toFinset.mp hd)).1

/-- The recorded run returns whenever the plain one does. -/
theorem RevealTileLog_of_aux {n : Nat} {s : Game} {x y : Int} {s1 : Game}
    (h : RevealTileAux n s x y = some s1) : ∃ m, RevealTileLog n s x y = some (s1, m) := by
  rw [← RevealTileLog_fst] at h
  cases hl : RevealTileLog n s x y with
  | none => rw [hl] at h; cases h
  | some p =>
    obtain ⟨s2, m⟩ := p
    rw [hl] at h
    simp only [Option.map_some', Option.some.injEq] at h
    subst h
    exact ⟨m, rfl⟩

/-! ## The loops over all cells -/

theorem foldl_rows_cols (body : Grid → Cell → Grid) (cols : List (Fin GRID_WIDTH)) :
    ∀ (rows : List (Fin GRID_HEIGHT)) (g : Grid),
      rows.foldl (fun g1 y => cols.foldl (fun g2 x => body g2 (y, x)) g1) g =
        (rows.flatMap fun y => cols.map fun x => (y, x)).foldl body g := by
  intro rows
  induction rows with
  | nil => intro g; rfl
  | cons y rest ih =>
    intro g
    rw [List.foldl_cons, List.flatMap_cons, List.foldl_append, List.foldl_map]
    exact ih _

theorem forEachCell_eq_foldl (body : Grid → Cell → Grid) (g : Grid) :
    forEachCell body g = allCells.foldl body g :=
  foldl_rows_cols body _ _ g

theorem mem_allCells (c : Cell) : c ∈ allCells := by
  unfold allCells
  simp only [List.mem_flatMap, List.mem_map, List.mem_finRange, true_and]
  exact ⟨c.1, c.2, rfl⟩

theorem nodup_allCells : allCells.Nodup := by
  unfold allCells
  rw [List.nodup_flatMap]
  constructor
  · intro y _
    exact (List.nodup_finRange _).map (fun a b h => (Prod.mk.inj h).2)
  · apply (List.nodup_finRange _).pairwise_of_forall_ne
    intro a _ b _ hab
    intro d hd1 hd2
    simp only [List.mem_map, List.mem_finRange, true_and] at hd1 hd2
    obtain ⟨x1, rfl⟩ := hd1
    obtain ⟨x2, h2⟩ := hd2
    exact hab (Prod.mk.inj h2).1.symm

theorem foldl_cells (body : Grid → Cell → Grid) (T : Cell → Tile) (g0 : Grid)
    (hbody : ∀ g c, (∀ d, tileAt g d = T d ∨ tileAt g d = tileAt g0 d) →
      tileAt g c = tileAt g0 c →
      ∀ d, tileAt (body g c) d = if d = c then T c else tileAt g d) :
    ∀ (l : List Cell) (g : Grid), l.Nodup →
      (∀ d, tileAt g d = T d ∨ tileAt g d = tileAt g0 d) →
      (∀ d ∈ l, tileAt g d = tileAt g0 d) →
      ∀ d, tileAt (l.foldl body g) d = if d ∈ l then T d else tileAt g d := by
  intro l
  induction l with
  | nil => intro g _ _ _ d; simp
  | cons c rest ih =>
    intro g hnd hinv hfresh d
    have hc := hbody g c hinv (hfresh c (List.mem_cons_self _ _))
    have hnd1 := List.nodup_cons.mp hnd
    rw [List.foldl_cons, ih (body g c) hnd1.2]
    · by_cases hdr : d ∈ rest
      · rw [if_pos hdr, if_pos (List.mem_cons_of_mem _ hdr)]
      · rw [if_neg hdr, hc d]
        by_cases hdc : d = c
        · subst hdc
          rw [if_pos rfl, if_pos (List.mem_cons_self _ _)]
        · rw [if_neg hdc, if_neg]
          intro hmem
          rcases List.mem_cons.mp hmem with h | h
          · exact hdc h
          · exact hdr h
    · intro d1
      rw [hc d1]
      by_cases h : d1 = c
      · subst h
        rw [if_pos rfl]
        exact Or.inl rfl
      · rw [if_neg h]
        exact hinv d1
    · intro d1 hd1
      have hne : d1 ≠ c := fun h => hnd1.1 (h ▸ hd1)
      rw [hc d1, if_neg hne]
      exact hfresh d1 (List.mem_cons_of_mem _ hd1)

theorem forEachCell_tile (body : Grid → Cell → Grid) (T : Cell → Tile) (g0 : Grid)
    (hbody : ∀ g c, (∀ d, tileAt g d = T d ∨ tileAt g d = tileAt g0 d) →
      tileAt g c = tileAt g0 c →
      ∀ d, tileAt (body g c) d = if d = c then T c else tileAt g d) (d : Cell) :
    tileAt (forEachCell body g0) d = T d := by
  rw [forEachCell_eq_foldl,
    foldl_cells body T g0 hbody allCells g0 nodup_allCells (fun _ => Or.inr rfl)
      (fun _ _ => rfl) d,
    if_pos (mem_allCells d)]

theorem tileAt_resetGrid (g : Grid) (d : Cell) :
    tileAt (resetGrid g) d = ⟨false, 0, HIDDEN⟩ := by
  unfold resetGrid
  apply forEachCell_tile _ (fun _ => ⟨false, 0, HIDDEN⟩) g
  intro g1 c _ _ d1
  rw [tileAt_setTile]

/-! ## Counting the mines around a cell -/

theorem countAround_congr {g g1 : Grid}
    (h : ∀ d, (tileAt g d).hasMine = (tileAt g1 d).hasMine) (x y : Int) :
    countAround g x y = countAround g1 x y := by
  unfold countAround
  congr 1
  funext count o
  cases cell? (x + o.2) (y + o.1) with
  | none => rfl
  | some d => simp only [h d]

theorem countAround_foldl (g : Grid) (x y : Int) :
    ∀ (l : List (Int × Int)) (init : Int),
      l.foldl
        (fun count o =>
          match cell? (x + o.2) (y + o.1) with
          | some d => if (tileAt g d).hasMine then count + 1 else count
          | none => count)
        init =
      init + (((l.filterMap fun o => cell? (x + o.2) (y + o.1)).filter
        fun d => (tileAt g d).hasMine).length : Int) := by
  intro l
  induction l with
  | nil => intro init; simp
  | cons o rest ih =>
    intro init
    rw [List.foldl_cons, ih]
    cases hc : cell? (x + o.2) (y + o.1) with
    | none => simp [List.filterMap_cons, hc]
    | some d =>
      cases hm : (tileAt g d).hasMine with
      | true =>
        simp only [List.filterMap_cons, hc, List.filter_cons, hm, if_true, List.length_cons]
        push_cast
        ring
      | false => simp [List.filterMap_cons, hc, List.filter_cons, hm]

theorem nodup_neighbourOffsets : neighbourOffsets.Nodup := by decide

theorem countAround_eq (g : Grid) (c : Cell) (hm : (tileAt g c).hasMine = false) :
    countAround g ((c.2 : Nat) : Int) ((c.1 : Nat) : Int) = (mineNeighbours g c : Int) := by
  unfold countAround
  rw [countAround_foldl, zero_add]
  congr 1
  unfold mineNeighbours
  have hnd : (neighbourOffsets.filterMap fun o =>
      cell? (((c.2 : Nat) : Int) + o.2) (((c.1 : Nat) : Int) + o.1)).Nodup := by
    refine List.Nodup.filterMap ?_ nodup_neighbourOffsets
    intro o1 o2 d h1 h2
    have e1 := cell?_eq_some.mp (Option.mem_def.mp h1)
    have e2 := cell?_eq_some.mp (Option.mem_def.mp h2)
    apply Prod.ext <;> omega
  rw [← List.toFinset_card_of_nodup (hnd.filter _)]
  congr 1
  ext d
  simp only [List.mem_toFinset, List.mem_filter, List.mem_filterMap, Finset.mem_filter,
    Finset.mem_univ, true_and]
  constructor
  · rintro ⟨⟨o, ho, hco⟩, hd⟩
    refine ⟨?_, hd⟩
    rcases adjacent_of_offset ho hco with rfl | hadj
    · rw [hm] at hd; cases hd
    · exact hadj
  · rintro ⟨hadj, hd⟩
    obtain ⟨o, ho, hco⟩ := offset_of_adjacent hadj
    exact ⟨⟨o, ho, hco⟩, hd⟩

theorem withCount_hasMine (g : Grid) (e : Cell) :
    (withCount g e).hasMine = (tileAt g e).hasMine := by
  unfold withCount
  split <;> rfl

theorem withCount_state (g : Grid) (e : Cell) :
    (withCount g e).state = (tileAt g e).state := by
  unfold withCount
  split <;> rfl

theorem tileAt_computeAdjacency (g : Grid) (d : Cell) :
    tileAt (computeAdjacency g) d = withCount g d := by
  unfold computeAdjacency
  refine forEachCell_tile _ (withCount g) g ?_ d
  intro g1 c hinv hfresh d1
  have hmines : ∀ e, (tileAt g1 e).hasMine = (tileAt g e).hasMine := by
    intro e
    rcases hinv e with h | h
    · rw [h, withCount_hasMine]
    · rw [h]
  by_cases hm : (tileAt g1 c).hasMine = true
  · rw [if_pos hm]
    by_cases hdc : d1 = c
    · subst hdc
      rw [if_pos rfl, hfresh]
      rw [hfresh] at hm
      unfold withCount
      rw [if_pos hm]
    · rw [if_neg hdc]
  · rw [if_neg hm, tileAt_setTile]
    by_cases hdc : d1 = c
    · subst hdc
      rw [if_pos rfl, if_pos rfl, hfresh, countAround_congr hmines]
      rw [hfresh] at hm
      unfold withCount
      rw [if_neg hm]
    · rw [if_neg hdc, if_neg hdc]

theorem mineNeighbours_congr {g g1 : Grid}
    (h : ∀ d, (tileAt g d).hasMine = (tileAt g1 d).hasMine) (c : Cell) :
    mineNeighbours g c = mineNeighbours g1 c := by
  unfold mineNeighbours
  congr 2
  ext d
  rw [h]

theorem adjCorrect_computeAdjacency (g : Grid) : AdjCorrect (computeAdjacency g) := by
  intro c hc
  have hmines : ∀ e, (tileAt (computeAdjacency g) e).hasMine = (tileAt g e).hasMine := by
    intro e
    rw [tileAt_computeAdjacency, withCount_hasMine]
  rw [hmines] at hc
  have h1 : mineNeighbours (computeAdjacency g) c = mineNeighbours g c :=
    mineNeighbours_congr hmines c
  rw [h1, tileAt_computeAdjacency]
  unfold withCount
  rw [if_neg (by rw [hc]; exact Bool.false_ne_true)]
  exact countAround_eq g c hc

/-! ## Placing the mines -/

theorem mineCount_congr {g g1 : Grid}
    (h : ∀ d, (tileAt g d).hasMine = (tileAt g1 d).hasMine) : mineCount g = mineCount g1 := by
  unfold mineCount
  congr 2
  ext d
  rw [h]

theorem mineCount_setMine (g : Grid) (c : Cell) (hm : (tileAt g c).hasMine = false) :
    mineCount (setTile g c { tileAt g c with hasMine := true }) = mineCount g + 1 := by
  unfold mineCount
  have hc : c ∉ Finset.univ.filter fun d : Cell => (tileAt g d).hasMine = true := by
    simp only [Finset.mem_filter, Finset.mem_univ, true_and, hm]
    exact Bool.false_ne_true
  rw [← Finset.card_insert_of_not_mem hc]
  congr 1
  ext d
  simp only [Finset.mem_filter, Finset.mem_univ, true_and, Finset.mem_insert, tileAt_setTile]
  by_cases hdc : d = c
  · simp [hdc]
  · simp [hdc]

theorem mineCount_resetGrid (g : Grid) : mineCount (resetGrid g) = 0 := by
  unfold mineCount
  rw [Finset.card_eq_zero, Finset.filter_eq_empty_iff]
  intro d _
  rw [tileAt_resetGrid]
  exact Bool.false_ne_true

theorem placeMines_done (m : Int) (draws : List Nat) (g : Grid) (placed : Int)
    (h : ¬ placed < m) : placeMines m draws g placed = some g := by
  match draws with
  | [] => simp [placeMines, h]
  | [_] => simp [placeMines, h]
  | _ :: _ :: _ => simp [placeMines, h]

/-- A draw that lands on a mine is dropped: the loop goes on with the next draws. -/
theorem placeMines_discard (m : Int) (rx ry : Nat) (rest : List Nat) (g : Grid) (placed : Int)
    (h : (tileAt g (drawnCell rx ry)).hasMine = true) :
    placeMines m (rx :: ry :: rest) g placed = placeMines m rest g placed := by
  by_cases hp : placed < m
  · simp [placeMines, hp, h]
  · rw [placeMines_done m _ g placed hp, placeMines_done m _ g placed hp]

theorem placeMines_spec (m : Int) :
    ∀ (n : Nat) (draws : List Nat), draws.length ≤ n → ∀ (g : Grid) (placed : Int) (g1 : Grid),
      placeMines m draws g placed = some g1 →
        (∀ d, (tileAt g1 d).state = (tileAt g d).state) ∧
        (placed ≤ m → (mineCount g : Int) = placed → (mineCount g1 : Int) = m) := by
  intro n
  induction n with
  | zero =>
    intro draws hlen g placed g1 h
    have hnil : draws = [] := List.length_eq_zero.mp (Nat.le_zero.mp hlen)
    subst hnil
    simp only [placeMines] at h
    split at h
    · cases h
    · cases h
      exact ⟨fun _ => rfl, fun _ _ => by omega⟩
  | succ n ih =>
    intro draws hlen g placed g1 h
    match draws, hlen, h with
    | [], _, h =>
      simp only [placeMines] at h
      split at h
      · cases h
      · cases h
        exact ⟨fun _ => rfl, fun _ _ => by omega⟩
    | [_], _, h =>
      simp only [placeMines] at h
      split at h
      · cases h
      · cases h
        exact ⟨fun _ => rfl, fun _ _ => by omega⟩
    | rx :: ry :: rest, hlen, h =>
      have hlen1 : rest.length ≤ n := by
        simp only [List.length_cons] at hlen
        omega
      by_cases hp : placed < m
      · cases hm : (tileAt g (drawnCell rx ry)).hasMine with
        | true =>
          rw [placeMines_discard m rx ry rest g placed hm] at h
          exact ih rest hlen1 g placed g1 h
        | false =>
          simp only [placeMines, hp, hm, if_true, Bool.false_eq_true, not_false_eq_true] at h
          obtain ⟨hs, hc⟩ := ih rest hlen1 _ _ g1 h
          refine ⟨?_, ?_⟩
          · intro d
            rw [hs d, tileAt_setTile]
            split
            · next hd => rw [hd]
            · rfl
          · intro _ hcount
            apply hc
            · omega
            · rw [mineCount_setMine g _ hm]
              push_cast
              omega
      · rw [placeMines_done m _ g placed hp] at h
        cases h
        exact ⟨fun _ => rfl, fun _ _ => by omega⟩

theorem InitGridWith_some {m : Int} {prev : Grid} {draws : List Nat} {g : Grid}
    (h : InitGridWith m prev draws = some g) :
    ∃ g1, placeMines m draws (resetGrid prev) 0 = some g1 ∧ g = computeAdjacency g1 := by
  unfold InitGridWith at h
  cases h1 : placeMines m draws (resetGrid prev) 0 with
  | none => rw [h1] at h; cases h
  | some g1 =>
    rw [h1] at h
    exact ⟨g1, rfl, (Option.some.inj h).symm⟩

theorem InitGridWith_adjCorrect {m : Int} {prev : Grid} {draws : List Nat} {g : Grid}
    (h : InitGridWith m prev draws = some g) : AdjCorrect g := by
  obtain ⟨g1, _, hg⟩ := InitGridWith_some h
  rw [hg]
  exact adjCorrect_computeAdjacency g1

theorem InitGridWith_hidden {m : Int} {prev : Grid} {draws : List Nat} {g : Grid}
    (h : InitGridWith m prev draws = some g) (d : Cell) : (tileAt g d).state = HIDDEN := by
  obtain ⟨g1, h1, hg⟩ := InitGridWith_some h
  rw [hg, tileAt_computeAdjacency, withCount_state,
    (placeMines_spec m _ draws (le_refl _) _ _ g1 h1).1 d, tileAt_resetGrid]

theorem InitGridWith_mineCount {m : Int} (hm : 0 ≤ m) {prev : Grid} {draws : List Nat}
    {g : Grid} (h : InitGridWith m prev draws = some g) : (mineCount g : Int) = m := by
  obtain ⟨g1, h1, hg⟩ := InitGridWith_some h
  have h2 : mineCount g = mineCount g1 := by
    rw [hg]
    exact mineCount_congr (fun d => by rw [tileAt_computeAdjacency, withCount_hasMine])
  have h3 : (mineCount (resetGrid prev) : Int) = 0 := by
    rw [mineCount_resetGrid]
    exact Nat.cast_zero
  rw [h2]
  exact (placeMines_spec m _ draws (le_refl _) _ _ g1 h1).2 hm h3

set_option maxRecDepth 100000 in
theorem InitGrid_topRow : InitGrid topRowGrid topRowDraws = some topRowGrid := by
  decide

theorem adjCorrect_topRowGrid : AdjCorrect topRowGrid :=
  InitGridWith_adjCorrect InitGrid_topRow

theorem RevealTile_eq_winCheck (s : Game) {x y : Int} {c : Cell} (hc : cell? x y = some c)
    (hr : ¬ Revealed s.grid c) (hm : (tileAt s.grid c).hasMine = false) :
    ∃ s2, RevealTile s x y = winCheck s2 := by
  have h1 := RevealTileAux_eq_RevealTile s x y
  have h3 : GRID_WIDTH * GRID_HEIGHT = (GRID_WIDTH * GRID_HEIGHT - 1) + 1 := by decide
  rw [h3] at h1
  by_cases ha : (tileAt s.grid c).adjacentMines = 0
  · rw [RevealTileAux_spread _ s hc hr hm ha] at h1
    cases he : revealEach (RevealTileAux (GRID_WIDTH * GRID_HEIGHT - 1)) x y neighbourOffsets
        ⟨markRevealed s.grid c, s.gameRunning, s.gameWon⟩ with
    | none => rw [he] at h1; cases h1
    | some s2 =>
      rw [he] at h1
      exact ⟨s2, (Option.some.inj h1).symm⟩
  · rw [RevealTileAux_leaf _ s hc hr hm ha] at h1
    exact ⟨_, (Option.some.inj h1).symm⟩

theorem winCheck_won (s : Game) (h : AllSafeRevealed (winCheck s).grid) :
    (winCheck s).gameRunning = false ∧ (winCheck s).gameWon = true := by
  rw [winCheck_grid] at h
  have hw := (checkWon_iff s.grid).mpr h
  unfold winCheck
  rw [if_pos hw]
  exact ⟨rfl, rfl⟩

theorem outcome_eq_won {s : Game} (h1 : s.gameRunning = false) (h2 : s.gameWon = true) :
    s.outcome = Outcome.Won := by
  unfold Game.outcome
  simp [h1, h2]

theorem handleEvent_ended (a : App) (e : Event) (draws : List Nat)
    (hend : a.game.gameRunning = false) (he : e ≠ Event.keyDown SDLK_RETURN) :
    ∃ a1, handleEvent a e draws = some a1 ∧ a1.game = a.game := by
  cases e with
  | quit => exact ⟨_, rfl, rfl⟩
  | mouseButtonDown button px py =>
    refine ⟨a, ?_, rfl⟩
    simp [handleEvent, hend]
  | keyDown sym =>
    have hs : sym ≠ SDLK_RETURN := fun h => he (by rw [h])
    by_cases hesc : sym = SDLK_ESCAPE
    · refine ⟨{ a with running := false }, ?_, rfl⟩
      simp [handleEvent, hend, hs, hesc]
    · refine ⟨a, ?_, rfl⟩
      simp [handleEvent, hend, hs, hesc]
  | other => exact ⟨_, rfl, rfl⟩

theorem handleEvents_ended :
    ∀ (evs : List (Event × List Nat)) (a : App), a.game.gameRunning = false →
      (∀ ed ∈ evs, ed.1 ≠ Event.keyDown SDLK_RETURN) →
      ∃ a1, handleEvents a evs = some a1 ∧ a1.game = a.game := by
  intro evs
  induction evs with
  | nil => intro a _ _; exact ⟨a, rfl, rfl⟩
  | cons ed rest ih =>
    intro a hend hno
    obtain ⟨e, draws⟩ := ed
    obtain ⟨a1, h1, g1⟩ := handleEvent_ended a e draws hend
      (hno (e, draws) (List.mem_cons_self _ _))
    obtain ⟨a2, h2, g2⟩ := ih a1 (by rw [g1]; exact hend)
      (fun ed hed => hno ed (List.mem_cons_of_mem _ hed))
    refine ⟨a2, ?_, g2.trans g1⟩
    simp only [handleEvents, h1]
    exact h2

theorem adjCorrect_foldl_RevealTile :
    ∀ (calls : List (Int × Int)) (s : Game), AdjCorrect s.grid →
      AdjCorrect (calls.foldl (fun s1 p => RevealTile s1 p.1 p.2) s).grid := by
  intro calls
  induction calls with
  | nil => intro s h; exact h
  | cons p rest ih =>
    intro s h
    rw [List.foldl_cons]
    exact ih _ (adjCorrect_advance (RevealTile_advance s p.1 p.2) h)

theorem adjCorrect_playable {s : Game} (h : Playable s) : AdjCorrect s.grid := by
  induction h with
  | start prev draws g hg => exact InitGridWith_adjCorrect hg
  | reveal x y _ ih => exact adjCorrect_advance (RevealTile_advance _ x y) ih

/-- Every state a run of `main` passes through after its first `InitGrid` is one
of the states `Playable` describes. -/
theorem playable_handleEvent (a a1 : App) (e : Event) (draws : List Nat)
    (hp : Playable a.game) (h : handleEvent a e draws = some a1) : Playable a1.game := by
  cases e with
  | quit =>
    simp [handleEvent] at h
    rw [← h]
    exact hp
  | mouseButtonDown button px py =>
    cases hrun : a.game.gameRunning with
    | true =>
      by_cases hb : button = SDL_BUTTON_LEFT
      · simp [handleEvent, hrun, hb] at h
        rw [← h]
        exact Playable.reveal _ _ hp
      · simp [handleEvent, hrun, hb] at h
        rw [← h]
        exact hp
    | false =>
      simp [handleEvent, hrun] at h
      rw [← h]
      exact hp
  | keyDown sym =>
    cases hrun : a.game.gameRunning with
    | true =>
      simp [handleEvent, hrun] at h
      rw [← h]
      exact hp
    | false =>
      by_cases hs : sym = SDLK_RETURN
      · cases hg : InitGrid a.game.grid draws with
        | none => simp [handleEvent, hrun, hs, hg] at h
        | some g =>
          simp [handleEvent, hrun, hs, hg] at h
          rw [← h]
          exact Playable.start _ _ g hg
      · by_cases hesc : sym = SDLK_ESCAPE
        · simp [handleEvent, hrun, hs, hesc] at h
          rw [← h]
          exact hp
        · simp [handleEvent, hrun, hs, hesc] at h
          rw [← h]
          exact hp
  | other =>
    simp [handleEvent] at h
    rw [← h]
    exact hp

/-! ## Properties of InitGrid -/

/-- C1. After `InitGrid` has returned, whatever the draws were, every cell without a
mine carries in `adjacentMines` the number of mines among its neighbours on the
grid: the cells other than itself whose row and column differ by at most one from
its own. Cells on an edge or in a corner have fewer neighbours; nothing wraps round. -/
theorem InitGrid_adjacentMines (prev : Grid) (draws : List Nat) (g : Grid)
    (h : InitGrid prev draws = some g) (c : Cell) (hc : (tileAt g c).hasMine = false) :
    (tileAt g c).adjacentMines =
      ((Finset.univ.filter fun d : Cell => Adjacent c d ∧ (tileAt g d).hasMine = true).card :
        Int) :=
  InitGridWith_adjCorrect h c hc

/-- An instance of `InitGrid_adjacentMines`: the run of `InitGrid` that yields `topRowGrid`, at the cell in row 1, column 0. -/
theorem InitGrid_adjacentMines_witness :
    InitGrid topRowGrid topRowDraws = some topRowGrid ∧
      (tileAt topRowGrid (1, 0)).hasMine = false ∧
      (tileAt topRowGrid (1, 0)).adjacentMines =
        ((Finset.univ.filter fun d : Cell =>
          Adjacent (1, 0) d ∧ (tileAt topRowGrid d).hasMine = true).card : Int) :=
  ⟨InitGrid_topRow, by decide,
    InitGrid_adjacentMines topRowGrid topRowDraws topRowGrid InitGrid_topRow (1, 0) (by decide)⟩

/-- C2. Whatever the grid held before and whatever the draws, when the placement loop
of `InitGrid` finishes the grid has exactly `MINES_COUNT` = 10 cells with a mine and
every cell is `HIDDEN`. A draw that lands on a cell that already has a mine is
dropped, so the mines are on distinct cells. -/
theorem InitGrid_mineCount (prev : Grid) (draws : List Nat) (g : Grid)
    (h : InitGrid prev draws = some g) :
    (Finset.univ.filter fun c : Cell => (tileAt g c).hasMine = true).card = 10 ∧
      (mineCount g : Int) = MINES_COUNT ∧
      (∀ c : Cell, (tileAt g c).state = HIDDEN) ∧
      (∀ (rx ry : Nat) (rest : List Nat) (g0 : Grid) (placed : Int),
        (tileAt g0 (drawnCell rx ry)).hasMine = true →
          placeMines MINES_COUNT (rx :: ry :: rest) g0 placed =
            placeMines MINES_COUNT rest g0 placed) := by
  have hcount : (mineCount g : Int) = MINES_COUNT :=
    InitGridWith_mineCount (by decide) h
  refine ⟨?_, hcount, InitGridWith_hidden h, ?_⟩
  · have h10 : mineCount g = 10 := by
      have : (mineCount g : Int) = 10 := hcount
      omega
    exact h10
  · intro rx ry rest g0 placed hm
    exact placeMines_discard MINES_COUNT rx ry rest g0 placed hm

/-- An instance of `InitGrid_mineCount`: the run of `InitGrid` that yields `topRowGrid`, one of its draws landing on a mine placed before. -/
theorem InitGrid_mineCount_witness :
    InitGrid topRowGrid topRowDraws = some topRowGrid ∧
      (Finset.univ.filter fun c : Cell => (tileAt topRowGrid c).hasMine = true).card = 10 :=
  ⟨InitGrid_topRow, (InitGrid_mineCount topRowGrid topRowDraws topRowGrid InitGrid_topRow).1⟩

/-! ## Properties of RevealTile -/

/-- C3. On a board with correct counts that is all `HIDDEN`, or is reached from such a
board by calls of `RevealTile` on cells without a mine, a call on a `HIDDEN` cell `t`
in bounds that has no mine leaves REVEALED exactly the cells that were, together
with the cells reached from `t` by a path of neighbouring cells in which every cell
before the last has no mine and `adjacentMines = 0`. When `t` has
`adjacentMines > 0` the call reveals `t` alone. -/
theorem RevealTile_cascade (s : Game) (x y : Int) (t : Cell)
    (_hadj : AdjCorrect s.grid) (hplay : SafePlay s) (ht : cell? x y = some t)
    (_hh : (tileAt s.grid t).state = HIDDEN) (_hm : (tileAt s.grid t).hasMine = false) :
    (∀ d : Cell, Revealed (RevealTile s x y).grid d ↔
        Revealed s.grid d ∨ CascadeReach s.grid t d) ∧
      (0 < (tileAt s.grid t).adjacentMines →
        ∀ d : Cell, Revealed (RevealTile s x y).grid d ↔ Revealed s.grid d ∨ d = t) := by
  have hmain := RevealTile_revealed_iff s ht (safePlay_closed hplay)
  refine ⟨hmain, ?_⟩
  intro hpos d
  rw [hmain d]
  constructor
  · rintro (h | h)
    · exact Or.inl h
    · exact Or.inr (cascadeReach_of_nonzero (Or.inr (by omega)) h)
  · rintro (h | h)
    · exact Or.inl h
    · rw [h]
      exact Or.inr CascadeReach.start

/-- An instance of `RevealTile_cascade`: a fresh round on `topRowGrid`, the call at column 5, row 6, a cell with count 0. -/
theorem RevealTile_cascade_witness :
    AdjCorrect topRowGame.grid ∧ SafePlay topRowGame ∧ cell? 5 6 = some (6, 5) ∧
      (tileAt topRowGame.grid (6, 5)).state = HIDDEN ∧
      (tileAt topRowGame.grid (6, 5)).hasMine = false ∧
      ((∀ d : Cell, Revealed (RevealTile topRowGame 5 6).grid d ↔
          Revealed topRowGame.grid d ∨ CascadeReach topRowGame.grid (6, 5) d) ∧
        (0 < (tileAt topRowGame.grid (6, 5)).adjacentMines →
          ∀ d : Cell, Revealed (RevealTile topRowGame 5 6).grid d ↔
            Revealed topRowGame.grid d ∨ d = (6, 5))) :=
  ⟨adjCorrect_topRowGrid, SafePlay.fresh _ (InitGridWith_hidden InitGrid_topRow),
    by decide, by decide, by decide,
    RevealTile_cascade topRowGame 5 6 (6, 5) adjCorrect_topRowGrid
      (SafePlay.fresh _ (InitGridWith_hidden InitGrid_topRow)) (by decide) (by decide)
      (by decide)⟩

/-- C4. A call of `RevealTile` on a cell in bounds that has no mine and is `HIDDEN` (or in
any state but REVEALED) ends, its whole cascade included, with `gameRunning = false`
and `gameWon = true` when every cell without a mine is REVEALED afterwards; this part
holds for every value of `Game`. When some cell without a mine is still not REVEALED,
the round stays as it was, `gameRunning = true` and `gameWon` unchanged: this part
is for the states a round can be in, a grid out of `InitGrid` changed by `RevealTile`
alone, with the round running. So revealing the last cell without a mine that was
not REVEALED wins the round in that same call. -/
theorem RevealTile_outcome (s : Game) (x y : Int) (t : Cell) (ht : cell? x y = some t)
    (hh : (tileAt s.grid t).state ≠ REVEALED) (hm : (tileAt s.grid t).hasMine = false) :
    (AllSafeRevealed (RevealTile s x y).grid →
        (RevealTile s x y).gameRunning = false ∧ (RevealTile s x y).gameWon = true ∧
          (RevealTile s x y).outcome = Outcome.Won) ∧
      (Playable s → s.gameRunning = true → ¬ AllSafeRevealed (RevealTile s x y).grid →
        (RevealTile s x y).gameRunning = true ∧ (RevealTile s x y).gameWon = s.gameWon ∧
          (RevealTile s x y).outcome = Outcome.Playing) ∧
      ((∀ d : Cell, d ≠ t → (tileAt s.grid d).hasMine = false → Revealed s.grid d) →
        (RevealTile s x y).gameRunning = false ∧ (RevealTile s x y).gameWon = true ∧
          (RevealTile s x y).outcome = Outcome.Won) := by
  have hwon : AllSafeRevealed (RevealTile s x y).grid →
      (RevealTile s x y).gameRunning = false ∧ (RevealTile s x y).gameWon = true ∧
        (RevealTile s x y).outcome = Outcome.Won := by
    intro hall
    obtain ⟨s2, h2⟩ := RevealTile_eq_winCheck s ht hh hm
    rw [h2] at hall ⊢
    obtain ⟨h3, h4⟩ := winCheck_won s2 hall
    exact ⟨h3, h4, outcome_eq_won h3 h4⟩
  refine ⟨hwon, ?_, ?_⟩
  · intro hplay hrun hnot
    obtain ⟨_, _, hflags⟩ := RevealTile_safe s
      (zeroSafe_of_adjCorrect (adjCorrect_playable hplay)) (fun c hc => by
        rw [ht] at hc
        cases hc
        exact hm)
    rcases hflags with ⟨h1, h2⟩ | ⟨hall, _, _⟩
    · refine ⟨h1.trans hrun, h2, ?_⟩
      unfold Game.outcome
      rw [h1, hrun]
      rfl
    · exact absurd hall hnot
  · intro hrest
    apply hwon
    intro d hd
    rw [GridAdvance.hasMine (RevealTile_advance s x y)] at hd
    by_cases hdt : d = t
    · rw [hdt]
      exact RevealTile_target s ht
    · exact GridAdvance.revealed (RevealTile_advance s x y) (hrest d hdt hd)

/-- An instance of `RevealTile_outcome`: a fresh round on `topRowGrid`, the call at
column 4, row 1. -/
theorem RevealTile_outcome_witness :
    cell? 4 1 = some (1, 4) ∧ (tileAt topRowGame.grid (1, 4)).state ≠ REVEALED ∧
      (tileAt topRowGame.grid (1, 4)).hasMine = false ∧ Playable topRowGame ∧
      topRowGame.gameRunning = true ∧
      (¬ AllSafeRevealed (RevealTile topRowGame 4 1).grid →
        (RevealTile topRowGame 4 1).gameRunning = true ∧
          (RevealTile topRowGame 4 1).gameWon = topRowGame.gameWon ∧
          (RevealTile topRowGame 4 1).outcome = Outcome.Playing) :=
  ⟨by decide, by decide, by decide, Playable.start _ _ _ InitGrid_topRow, rfl,
    (RevealTile_outcome topRowGame 4 1 (1, 4) (by decide) (by decide) (by decide)).2.1
      (Playable.start _ _ _ InitGrid_topRow) rfl⟩

/-- Why the second part of the property above is for the states of a round: on
`mineByZeroGame`, which is none, the call on the corner `(0, 0)` reveals the mine in
row 0, column 1 in its cascade, so afterwards the cell `(5, 5)` without a mine is
still `HIDDEN` and the flags say lost. `RevealTile` is never called on such a
board: `InitGrid` sets the counts and nothing else writes them. -/
theorem RevealTile_wrong_counts :
    mineByZeroGame.gameRunning = true ∧ cell? 0 0 = some (0, 0) ∧
      (tileAt mineByZeroGame.grid (0, 0)).state = HIDDEN ∧
      (tileAt mineByZeroGame.grid (0, 0)).hasMine = false ∧
      (tileAt (RevealTile mineByZeroGame 0 0).grid (5, 5)).hasMine = false ∧
      (tileAt (RevealTile mineByZeroGame 0 0).grid (5, 5)).state = HIDDEN ∧
      ¬ AllSafeRevealed (RevealTile mineByZeroGame 0 0).grid ∧
      (RevealTile mineByZeroGame 0 0).outcome = Outcome.Lost := by
  have h1 : (tileAt (RevealTile mineByZeroGame 0 0).grid (5, 5)).hasMine = false := by decide
  have h2 : (tileAt (RevealTile mineByZeroGame 0 0).grid (5, 5)).state = HIDDEN := by decide
  refine ⟨rfl, by decide, by decide, by decide, h1, h2, ?_, by decide⟩
  intro hall
  have h3 := hall (5, 5) h1
  unfold Revealed at h3
  rw [h2] at h3
  cases h3

/-- C5. On any board, a call of `RevealTile` on a cell in bounds that has a mine and
is not REVEALED sets `gameRunning = false` and `gameWon = false`, turns that cell to
REVEALED and leaves every other tile as it was; no neighbour is visited and the win
scan is not run. -/
theorem RevealTile_mine_lost (s : Game) (x y : Int) (t : Cell) (ht : cell? x y = some t)
    (hm : (tileAt s.grid t).hasMine = true) (hr : (tileAt s.grid t).state ≠ REVEALED) :
    (RevealTile s x y).gameRunning = false ∧ (RevealTile s x y).gameWon = false ∧
      (RevealTile s x y).outcome = Outcome.Lost ∧
      tileAt (RevealTile s x y).grid t = { tileAt s.grid t with state := REVEALED } ∧
      (∀ d : Cell, d ≠ t → tileAt (RevealTile s x y).grid d = tileAt s.grid d) := by
  rw [RevealTile_mine s ht hr hm]
  refine ⟨rfl, rfl, rfl, ?_, ?_⟩
  · show tileAt (markRevealed s.grid t) t = _
    rw [tileAt_markRevealed, if_pos rfl]
  · intro d hd
    show tileAt (markRevealed s.grid t) d = _
    rw [tileAt_markRevealed, if_neg hd]

/-- An instance of `RevealTile_mine_lost`: a fresh round on `topRowGrid`, the call on the mine at column 3, row 0. -/
theorem RevealTile_mine_lost_witness :
    cell? 3 0 = some (0, 3) ∧ (tileAt topRowGame.grid (0, 3)).hasMine = true ∧
      (tileAt topRowGame.grid (0, 3)).state ≠ REVEALED ∧
      (RevealTile topRowGame 3 0).outcome = Outcome.Lost :=
  ⟨by decide, by decide, by decide,
    (RevealTile_mine_lost topRowGame 3 0 (0, 3) (by decide) (by decide) (by decide)).2.2.1⟩

/-- C6. A call of `RevealTile` with coordinates out of bounds, or on a cell that is
already REVEALED, returns the state it was given: no tile and neither flag changes.
Hence a second call with the same coordinates changes nothing the first has not. -/
theorem RevealTile_noop (s : Game) (x y : Int) :
    ((x < 0 ∨ (GRID_WIDTH : Int) ≤ x ∨ y < 0 ∨ (GRID_HEIGHT : Int) ≤ y ∨
        ∃ c, cell? x y = some c ∧ (tileAt s.grid c).state = REVEALED) →
      RevealTile s x y = s) ∧
      RevealTile (RevealTile s x y) x y = RevealTile s x y := by
  constructor
  · intro h
    apply RevealTile_skip
    rcases h with h | h | h | h | h
    · exact Or.inl (cell?_eq_none.mpr (Or.inl h))
    · exact Or.inl (cell?_eq_none.mpr (Or.inr (Or.inl h)))
    · exact Or.inl (cell?_eq_none.mpr (Or.inr (Or.inr (Or.inl h))))
    · exact Or.inl (cell?_eq_none.mpr (Or.inr (Or.inr (Or.inr h))))
    · exact Or.inr h
  · apply RevealTile_skip
    cases hc : cell? x y with
    | none => exact Or.inl rfl
    | some c => exact Or.inr ⟨c, rfl, RevealTile_target s hc⟩

/-- An instance of `RevealTile_noop`: a call left of the grid, and a call repeated. -/
theorem RevealTile_noop_witness :
    ((-1 : Int) < 0 ∨ (GRID_WIDTH : Int) ≤ -1 ∨ (3 : Int) < 0 ∨ (GRID_HEIGHT : Int) ≤ 3 ∨
        ∃ c, cell? (-1) 3 = some c ∧ (tileAt topRowGame.grid c).state = REVEALED) ∧
      RevealTile topRowGame (-1) 3 = topRowGame ∧
      RevealTile (RevealTile topRowGame 4 1) 4 1 = RevealTile topRowGame 4 1 :=
  ⟨Or.inl (by decide), (RevealTile_noop topRowGame (-1) 3).1 (Or.inl (by decide)),
    (RevealTile_noop topRowGame 4 1).2⟩

/-! ## After the round has ended -/

/-- C7. Once `gameRunning` is false (the round is won or lost), `main` passes no click
on to `RevealTile`: a mouse event with any button at any position leaves the grid,
both flags and `running` as they are, and so does every run of events that has no
press of Return in it, as far as the grid and the two flags go. -/
theorem handleEvents_after_end (a : App) (evs : List (Event × List Nat))
    (hend : a.game.gameRunning = false)
    (hno : ∀ ed ∈ evs, ed.1 ≠ Event.keyDown SDLK_RETURN) :
    (∀ (button : Nat) (px py : Int) (draws : List Nat),
        handleEvent a (Event.mouseButtonDown button px py) draws = some a) ∧
      ∃ a1, handleEvents a evs = some a1 ∧ a1.game = a.game := by
  refine ⟨?_, handleEvents_ended evs a hend hno⟩
  intro button px py draws
  simp [handleEvent, hend]

/-- An instance of `handleEvents_after_end`: after a lost round, two clicks on the grid and a press of the space bar. -/
theorem handleEvents_after_end_witness :
    (⟨lostGame, true⟩ : App).game.gameRunning = false ∧
      (∀ ed ∈ [(Event.mouseButtonDown SDL_BUTTON_LEFT 170 40, ([] : List Nat)),
          (Event.keyDown 32, []), (Event.mouseButtonDown SDL_BUTTON_LEFT 10 300, [])],
        ed.1 ≠ Event.keyDown SDLK_RETURN) ∧
      ∃ a1, handleEvents ⟨lostGame, true⟩
          [(Event.mouseButtonDown SDL_BUTTON_LEFT 170 40, []), (Event.keyDown 32, []),
            (Event.mouseButtonDown SDL_BUTTON_LEFT 10 300, [])] = some a1 ∧
        a1.game = lostGame :=
  ⟨rfl, by decide,
    (handleEvents_after_end ⟨lostGame, true⟩
      [(Event.mouseButtonDown SDL_BUTTON_LEFT 170 40, []), (Event.keyDown 32, []),
        (Event.mouseButtonDown SDL_BUTTON_LEFT 10 300, [])] rfl (by decide)).2⟩

/-- The gate is in `main` alone: `RevealTile` itself does not read `gameRunning`, and
called on a round that has ended it still reveals a cell. -/
theorem RevealTile_reads_no_flag :
    lostGame.gameRunning = false ∧
      (tileAt lostGame.grid (1, 4)).state = HIDDEN ∧
      (tileAt (RevealTile lostGame 4 1).grid (1, 4)).state = REVEALED := by
  decide

/-! ## The configuration -/

/-- C9. For every board and all coordinates, in bounds or not, `RevealTile` returns,
and the depth of its recursion stays within `GRID_WIDTH * GRID_HEIGHT`: that budget,
and any larger one, gives the same result. Each call that passes the guard assigns
`REVEALED` to one cell that was not REVEALED; the cells so assigned during the call
are pairwise distinct, at most `GRID_WIDTH * GRID_HEIGHT` in number, and they are
exactly the cells that are REVEALED afterwards and were not before. -/
theorem RevealTile_terminates (s : Game) (x y : Int) :
    RevealTileAux (GRID_WIDTH * GRID_HEIGHT) s x y = some (RevealTile s x y) ∧
      (∀ k : Nat, RevealTileAux (GRID_WIDTH * GRID_HEIGHT + k) s x y =
        some (RevealTile s x y)) ∧
      ∃ marks : List Cell,
        RevealTileLog (GRID_WIDTH * GRID_HEIGHT) s x y = some (RevealTile s x y, marks) ∧
          marks.Nodup ∧ marks.length ≤ GRID_WIDTH * GRID_HEIGHT ∧
          ∀ c : Cell, c ∈ marks ↔
            (tileAt s.grid c).state ≠ REVEALED ∧
              (tileAt (RevealTile s x y).grid c).state = REVEALED := by
  have h := RevealTileAux_eq_RevealTile s x y
  refine ⟨h, fun k => RevealTileAux_mono_add _ k s x y _ h, ?_⟩
  obtain ⟨marks, hm⟩ := RevealTileLog_of_aux h
  have hok := RevealTileLog_ok _ s x y _ marks hm
  exact ⟨marks, hm, hok.1, le_trans hok.length_le (hiddenCount_le_cells s.grid), hok.2⟩

/-! ## What RevealTile never does -/

/-- C10. On a board with correct counts, a call of `RevealTile` on a cell in bounds that
has no mine marks no cell with a mine REVEALED and leaves the outcome as it was or
makes it `Won`, never `Lost`; so a call that turns the outcome to `Lost` has a
target with a mine. Any call, on any board, leaves `hasMine` and `adjacentMines` of
every cell alone and keeps every REVEALED cell REVEALED, so the counts stay correct
after any sequence of calls. -/
theorem RevealTile_safe_cascade (s : Game) (x y : Int) (hadj : AdjCorrect s.grid) :
    ((∃ t, cell? x y = some t ∧ (tileAt s.grid t).hasMine = false) →
        (∀ d : Cell, (tileAt s.grid d).hasMine = true →
          Revealed (RevealTile s x y).grid d → Revealed s.grid d) ∧
        ((RevealTile s x y).outcome = s.outcome ∨
          (RevealTile s x y).outcome = Outcome.Won)) ∧
      (s.outcome ≠ Outcome.Lost → (RevealTile s x y).outcome = Outcome.Lost →
        ∃ t, cell? x y = some t ∧ (tileAt s.grid t).hasMine = true) ∧
      (∀ d : Cell, (tileAt (RevealTile s x y).grid d).hasMine = (tileAt s.grid d).hasMine ∧
        (tileAt (RevealTile s x y).grid d).adjacentMines = (tileAt s.grid d).adjacentMines) ∧
      (∀ d : Cell, Revealed s.grid d → Revealed (RevealTile s x y).grid d) ∧
      AdjCorrect (RevealTile s x y).grid ∧
      (∀ calls : List (Int × Int),
        AdjCorrect (calls.foldl (fun s1 p => RevealTile s1 p.1 p.2) s).grid) := by
  have hsafe : (∃ t, cell? x y = some t ∧ (tileAt s.grid t).hasMine = false) →
      (∀ d : Cell, (tileAt s.grid d).hasMine = true →
        Revealed (RevealTile s x y).grid d → Revealed s.grid d) ∧
      ((RevealTile s x y).outcome = s.outcome ∨
        (RevealTile s x y).outcome = Outcome.Won) := by
    rintro ⟨t, ht, hm⟩
    obtain ⟨_, hmines, hflags⟩ := RevealTile_safe s (zeroSafe_of_adjCorrect hadj)
      (fun c hc => by
        rw [ht] at hc
        cases hc
        exact hm)
    refine ⟨hmines, ?_⟩
    rcases hflags with ⟨h1, h2⟩ | ⟨_, h1, h2⟩
    · left
      unfold Game.outcome
      rw [h1, h2]
    · exact Or.inr (outcome_eq_won h1 h2)
  have hadv := RevealTile_advance s x y
  refine ⟨hsafe, ?_, fun d => ⟨GridAdvance.hasMine hadv d, GridAdvance.adjacentMines hadv d⟩,
    fun d hd => GridAdvance.revealed hadv hd, adjCorrect_advance hadv hadj,
    fun calls => adjCorrect_foldl_RevealTile calls s hadj⟩
  intro hnot hlost
  cases hc : cell? x y with
  | none =>
    rw [RevealTile_skip s (Or.inl hc)] at hlost
    exact absurd hlost hnot
  | some t =>
    refine ⟨t, rfl, ?_⟩
    cases hm : (tileAt s.grid t).hasMine with
    | true => rfl
    | false =>
      exfalso
      rcases (hsafe ⟨t, hc, hm⟩).2 with h | h
      · rw [h] at hlost
        exact hnot hlost
      · rw [h] at hlost
        cases hlost

/-- An instance of `RevealTile_safe_cascade`: a fresh round on `topRowGrid`, the call at column 5, row 6. -/
theorem RevealTile_safe_cascade_witness :
    AdjCorrect topRowGame.grid ∧
      ((∃ t, cell? 5 6 = some t ∧ (tileAt topRowGame.grid t).hasMine = false) →
        (∀ d : Cell, (tileAt topRowGame.grid d).hasMine = true →
          Revealed (RevealTile topRowGame 5 6).grid d → Revealed topRowGame.grid d) ∧
        ((RevealTile topRowGame 5 6).outcome = topRowGame.outcome ∨
          (RevealTile topRowGame 5 6).outcome = Outcome.Won)) :=
  ⟨adjCorrect_topRowGrid, (RevealTile_safe_cascade topRowGame 5 6 adjCorrect_topRowGrid).1⟩

end Minesweeper
